import Mathlib

/-!
Verification of the LT-code core of the LTCodesFileBridge repository.

The Python source in `tools.py`, `show_codes.py` and `readcodes_zbar.py` is
shallowly embedded below: byte strings become lists of naturals, Python's
in-place mutation of the decoder becomes explicit state passing, and the
floating-point Robust Soliton computation is embedded over the reals.
-/

/-- Byte strings are modelled as lists of naturals (each byte being `< 256`
where it matters). -/
abbrev Bytes := List Nat

/-- Python's `math.ceil(a / b)` on nonnegative integers (exact, `b > 0`). -/
def ceilDiv (a b : Nat) : Nat := (a + b - 1) / b

/-- Bytewise XOR of two byte strings; like Python's
`bytes(a ^ b for a, b in zip(x, y))` it truncates to the shorter input. -/
def xorB (x y : Bytes) : Bytes := List.zipWith (fun a b => a ^^^ b) x y

/-- Python's `s.ljust(n, b'\x00')`: pad on the right with zero bytes. -/
def ljust (x : Bytes) (n : Nat) : Bytes := x ++ List.replicate (n - x.length) 0

theorem length_xorB (x y : Bytes) : (xorB x y).length = min x.length y.length := by
  simp [xorB]

theorem length_ljust (x : Bytes) (n : Nat) (h : x.length ≤ n) :
    (ljust x n).length = n := by
  simp [ljust]
  omega

theorem xorB_comm (x y : Bytes) : xorB x y = xorB y x := by
  induction x generalizing y with
  | nil => cases y <;> simp [xorB]
  | cons a x ih =>
    cases y with
    | nil => simp [xorB]
    | cons b y => simp [xorB] at ih ⊢; exact ⟨Nat.xor_comm a b, ih y⟩

theorem xorB_left_comm (x y z : Bytes) : xorB x (xorB y z) = xorB y (xorB x z) := by
  induction x generalizing y z with
  | nil => cases y <;> simp [xorB]
  | cons a x ih =>
    cases y with
    | nil => simp [xorB]
    | cons b y =>
      cases z with
      | nil => simp [xorB]
      | cons c z =>
        simp [xorB] at ih ⊢
        constructor
        · rw [← Nat.xor_assoc, Nat.xor_comm a b, Nat.xor_assoc]
        · exact ih y z

theorem xorB_zero_right (x : Bytes) : xorB x (List.replicate x.length 0) = x := by
  induction x with
  | nil => simp [xorB]
  | cons a x ih => simp [xorB, List.replicate] at ih ⊢; exact ih

theorem xorB_zero_left (x : Bytes) : xorB (List.replicate x.length 0) x = x := by
  rw [xorB_comm]; exact xorB_zero_right x

/-- XOR-ing the same string in twice cancels (equal lengths). -/
theorem xorB_cancel_left (y x : Bytes) (h : y.length = x.length) :
    xorB y (xorB y x) = x := by
  induction y generalizing x with
  | nil => cases x with | nil => simp [xorB] | cons b x => simp at h
  | cons a y ih =>
    cases x with
    | nil => simp at h
    | cons b x =>
      simp at h
      simp [xorB] at ih ⊢
      constructor
      · rw [← Nat.xor_assoc, Nat.xor_self, Nat.zero_xor]
      · exact ih x h

theorem xorB_cancel_right (x y : Bytes) (h : y.length = x.length) :
    xorB (xorB y x) y = x := by
  rw [xorB_comm]
  exact xorB_cancel_left y x h

/-! ### Block-size planner (`tools.py`, `choose_block_size`)

The Python loop descends `block_size` from `max_payload_size - 1` to `1` and
returns the first (hence largest) value meeting the bitmask+block constraint;
a `ValueError` (modelled as `none`) is raised when the loop exhausts. -/

/-- The loop body of `choose_block_size`: try `bs`, `bs - 1`, ..., `1`. -/
def cbsLoop (file_size max_payload_size : Nat) : Nat → Option Nat
  | 0 => none
  | bs + 1 =>
    if ceilDiv (ceilDiv file_size (bs + 1)) 8 + (bs + 1) ≤ max_payload_size then
      some (bs + 1)
    else
      cbsLoop file_size max_payload_size bs

/-- `choose_block_size(file_size, max_payload_size)` from `tools.py`;
`none` models the `ValueError`. -/
def choose_block_size (file_size max_payload_size : Nat) : Option Nat :=
  cbsLoop file_size max_payload_size (max_payload_size - 1)

/-- The constraint of the planner: `ceil(K/8) + bs <= mps` with
`K = ceil(file_size / bs)`. -/
def FitsPayload (file_size max_payload_size bs : Nat) : Prop :=
  ceilDiv (ceilDiv file_size bs) 8 + bs ≤ max_payload_size

instance (fs mps bs : Nat) : Decidable (FitsPayload fs mps bs) := by
  unfold FitsPayload; infer_instance

theorem cbsLoop_some {fs mps n bs : Nat} (h : cbsLoop fs mps n = some bs) :
    1 ≤ bs ∧ bs ≤ n ∧ FitsPayload fs mps bs ∧
      ∀ b, bs < b → b ≤ n → ¬ FitsPayload fs mps b := by
  induction n with
  | zero => simp [cbsLoop] at h
  | succ n ih =>
    rw [cbsLoop] at h
    by_cases hc : ceilDiv (ceilDiv fs (n + 1)) 8 + (n + 1) ≤ mps
    · rw [if_pos hc] at h
      cases h
      exact ⟨Nat.succ_le_succ (Nat.zero_le n), le_refl _, hc, fun b hb hb2 => by omega⟩
    · rw [if_neg hc] at h
      obtain ⟨h1, h2, h3, h4⟩ := ih h
      refine ⟨h1, Nat.le_succ_of_le h2, h3, fun b hb hb2 => ?_⟩
      rcases Nat.lt_or_ge b (n + 1) with hlt | hge
      · exact h4 b hb (by omega)
      · have : b = n + 1 := by omega
        subst this; exact hc

theorem cbsLoop_none {fs mps n : Nat} :
    cbsLoop fs mps n = none ↔ ∀ b, 1 ≤ b → b ≤ n → ¬ FitsPayload fs mps b := by
  induction n with
  | zero => simp [cbsLoop]; omega
  | succ n ih =>
    rw [cbsLoop]
    by_cases hc : ceilDiv (ceilDiv fs (n + 1)) 8 + (n + 1) ≤ mps
    · rw [if_pos hc]
      simp only [reduceCtorEq, false_iff]
      intro h
      exact h (n + 1) (by omega) (le_refl _) hc
    · rw [if_neg hc, ih]
      constructor
      · intro h b h1 h2
        rcases Nat.lt_or_ge b (n + 1) with hlt | hge
        · exact h b h1 (by omega)
        · have : b = n + 1 := by omega
          subst this; exact hc
      · intro h b h1 h2
        exact h b h1 (by omega)

/-- With a nonempty file, no block size `>= max_payload_size` can fit, since the
bitmask then takes at least one byte. -/
theorem not_fits_of_large_bs {fs mps bs : Nat} (hfs : 1 ≤ fs) (hbs1 : 1 ≤ bs)
    (hbs : mps ≤ bs) : ¬ FitsPayload fs mps bs := by
  unfold FitsPayload
  intro h
  have h1 : 1 ≤ ceilDiv fs bs := by
    unfold ceilDiv
    have : 1 * bs ≤ fs + bs - 1 := by omega
    exact (Nat.le_div_iff_mul_le hbs1).mpr this
  have h2 : 1 ≤ ceilDiv (ceilDiv fs bs) 8 := by
    unfold ceilDiv
    have : 1 * 8 ≤ ceilDiv fs bs + 8 - 1 := by omega
    exact (Nat.le_div_iff_mul_le (by omega)).mpr this
  omega

/-- Claim C4 (counterexample): the claim says `choose_block_size` signals an
error when `file_size = 0`, but the code happily returns
`max_payload_size - 1 = 1` for `file_size = 0`, `max_payload_size = 2`. -/
theorem choose_block_size_file_size_zero : choose_block_size 0 2 = some 1 := by
  rfl

/-- Claim C4 (amended): `choose_block_size` returns the largest
`block_size ≤ max_payload_size - 1` with
`ceil(K/8) + block_size ≤ max_payload_size` (for `file_size ≥ 1` this is the
largest such integer overall), and signals an error exactly when no
`block_size` in `[1, max_payload_size - 1]` satisfies the constraint — in
particular whenever `max_payload_size < 2`. `file_size = 0` is not rejected. -/
theorem choose_block_size_spec (fs mps : Nat) :
    (∀ bs, choose_block_size fs mps = some bs →
        1 ≤ bs ∧ bs ≤ mps - 1 ∧ FitsPayload fs mps bs ∧
        (∀ b, bs < b → b ≤ mps - 1 → ¬ FitsPayload fs mps b) ∧
        (1 ≤ fs → ∀ b, bs < b → ¬ FitsPayload fs mps b)) ∧
    (choose_block_size fs mps = none ↔
        ∀ b, 1 ≤ b → b ≤ mps - 1 → ¬ FitsPayload fs mps b) ∧
    (mps < 2 → choose_block_size fs mps = none) := by
  refine ⟨?_, ?_, ?_⟩
  · intro bs h
    obtain ⟨h1, h2, h3, h4⟩ := cbsLoop_some h
    refine ⟨h1, h2, h3, h4, ?_⟩
    intro hfs b hb
    rcases Nat.lt_or_ge b mps with hlt | hge
    · exact h4 b hb (by omega)
    · exact not_fits_of_large_bs hfs (by omega) hge
  · exact cbsLoop_none
  · intro h
    show cbsLoop fs mps (mps - 1) = none
    rw [cbsLoop_none]
    intro b h1 h2
    omega

/-- Witness for `choose_block_size_spec` at `file_size = 10`,
`max_payload_size = 12`. -/
theorem choose_block_size_spec_witness :
    FitsPayload 10 12 11 ∧ ∀ b, 11 < b → ¬ FitsPayload 10 12 b := by
  have h := (choose_block_size_spec 10 12).1 11 rfl
  exact ⟨h.2.2.1, fun b hb => h.2.2.2.2 (by norm_num) b hb⟩

/-! ### Encoder (`tools.py`, `lt_encoder`)

`lt_encoder` slices the file into `num_blocks = ceil(len(file_data)/block_size)`
blocks, and for each sampled list of indices emits the XOR of the zero-padded
selected blocks.  The degree and index sampling (`choose_degree`,
`random.sample`) is randomness; its guarantees (a nonempty list of distinct
indices below `num_blocks`) appear as hypotheses. -/

theorem xorB_assoc (x y z : Bytes) : xorB (xorB x y) z = xorB x (xorB y z) := by
  induction x generalizing y z with
  | nil => simp [xorB]
  | cons a x ih =>
    cases y with
    | nil => simp [xorB]
    | cons b y =>
      cases z with
      | nil => simp [xorB]
      | cons c z =>
        simp [xorB] at ih ⊢
        exact ⟨Nat.xor_assoc a b c, ih y z⟩

/-- The `blocks` list built once by `lt_encoder` (unpadded slices). -/
def lt_encoder_blocks (file_data : Bytes) (block_size : Nat) : List Bytes :=
  (List.range (ceilDiv file_data.length block_size)).map
    (fun i => (file_data.drop (i * block_size)).take block_size)

/-- Zero-padded block `i` of the file: `blocks[i].ljust(block_size, b'\x00')`. -/
def block_at (file_data : Bytes) (block_size i : Nat) : Bytes :=
  ljust ((file_data.drop (i * block_size)).take block_size) block_size

/-- XOR of the zero-padded blocks indexed by `l` — the value every encoded
packet must carry. -/
def xor_blocks (file_data : Bytes) (block_size : Nat) (l : List Nat) : Bytes :=
  l.foldr (fun i acc => xorB (block_at file_data block_size i) acc)
    (List.replicate block_size 0)

/-- One iteration of `lt_encoder`'s loop: the packet built from the sampled
`indices` (`packet = blocks[indices[0]].ljust(...)` XOR-folded over the rest). -/
def lt_encoder_packet (file_data : Bytes) (block_size : Nat) (indices : List Nat) :
    Bytes :=
  match indices with
  | [] => []
  | i0 :: rest =>
    rest.foldl
      (fun packet idx =>
        xorB packet
          (ljust ((lt_encoder_blocks file_data block_size).getD idx []) block_size))
      (ljust ((lt_encoder_blocks file_data block_size).getD i0 []) block_size)

theorem length_block_at (fd : Bytes) (bs i : Nat) :
    (block_at fd bs i).length = bs := by
  unfold block_at
  apply length_ljust
  simp

theorem length_xor_blocks (fd : Bytes) (bs : Nat) (l : List Nat) :
    (xor_blocks fd bs l).length = bs := by
  induction l with
  | nil => simp [xor_blocks]
  | cons i l ih =>
    simp only [xor_blocks, List.foldr] at ih ⊢
    rw [length_xorB, ih, length_block_at]
    simp

theorem lt_encoder_blocks_getD (fd : Bytes) (bs i : Nat)
    (h : i < ceilDiv fd.length bs) :
    ljust ((lt_encoder_blocks fd bs).getD i []) bs = block_at fd bs i := by
  unfold lt_encoder_blocks block_at
  rw [List.getD_eq_getElem?_getD, List.getElem?_map, List.getElem?_range h]
  rfl

theorem foldl_xorB_blocks (fd : Bytes) (bs : Nat) :
    ∀ (l : List Nat) (a : Bytes), a.length = bs →
      (∀ i ∈ l, i < ceilDiv fd.length bs) →
      l.foldl
        (fun packet idx =>
          xorB packet (ljust ((lt_encoder_blocks fd bs).getD idx []) bs)) a
        = xorB a (xor_blocks fd bs l) := by
  intro l
  induction l with
  | nil =>
    intro a ha _
    show a = xorB a (List.replicate bs 0)
    rw [← ha, xorB_zero_right]
  | cons i l ih =>
    intro a ha hmem
    simp only [List.foldl_cons]
    rw [lt_encoder_blocks_getD fd bs i (hmem i (by simp)),
      ih (xorB a (block_at fd bs i))
        (by rw [length_xorB, ha, length_block_at]; simp)
        (fun j hj => hmem j (by simp [hj])),
      xorB_assoc]
    rfl

/-- Claim C5: every packet yielded by `lt_encoder` (for a nonempty list of
distinct sampled indices below `num_blocks`, as `random.sample` guarantees)
has length exactly `block_size` and equals the XOR of the zero-padded blocks
it indexes. -/
theorem lt_encoder_packet_spec (fd : Bytes) (bs : Nat) (indices : List Nat)
    (hbs : 0 < bs) (hne : indices ≠ []) (hnd : indices.Nodup)
    (hlt : ∀ i ∈ indices, i < ceilDiv fd.length bs) :
    (lt_encoder_packet fd bs indices).length = bs ∧
      lt_encoder_packet fd bs indices = xor_blocks fd bs indices := by
  cases indices with
  | nil => exact absurd rfl hne
  | cons i0 rest =>
    have hpkt : lt_encoder_packet fd bs (i0 :: rest) = xor_blocks fd bs (i0 :: rest) := by
      show rest.foldl _ (ljust ((lt_encoder_blocks fd bs).getD i0 []) bs) = _
      rw [lt_encoder_blocks_getD fd bs i0 (hlt i0 (by simp)),
        foldl_xorB_blocks fd bs rest (block_at fd bs i0) (length_block_at fd bs i0)
          (fun j hj => hlt j (by simp [hj]))]
      rfl
    exact ⟨by rw [hpkt]; exact length_xor_blocks fd bs _, hpkt⟩

/-- Witness for `lt_encoder_packet_spec` on the file `[1,2,3]` with
`block_size = 2` and `indices = [0, 1]`. -/
theorem lt_encoder_packet_spec_witness :
    (lt_encoder_packet [1, 2, 3] 2 [0, 1]).length = 2 ∧
      lt_encoder_packet [1, 2, 3] 2 [0, 1] = xor_blocks [1, 2, 3] 2 [0, 1] :=
  lt_encoder_packet_spec [1, 2, 3] 2 [0, 1] (by decide) (by decide) (by decide)
    (by decide)

/-! ### Frame codec: bitmask encoding (`show_codes.py`, `indices_to_bitmask`)

The Python code sets bit `i % 8` of byte `i // 8` in a buffer of
`ceil(num_blocks / 8)` zero bytes, then reverses the buffer. -/

/-- The loop of `indices_to_bitmask`:
`for i in indices: bitmask[i // 8] |= 1 << (i % 8)`. -/
def setBits (B : Bytes) (indices : List Nat) : Bytes :=
  indices.foldl (fun bm i => bm.set (i / 8) (bm.getD (i / 8) 0 ||| (1 <<< (i % 8)))) B

/-- `indices_to_bitmask(indices, num_blocks)` from `show_codes.py`. -/
def indices_to_bitmask (indices : List Nat) (num_blocks : Nat) : Bytes :=
  (setBits (List.replicate (ceilDiv num_blocks 8) 0) indices).reverse

theorem setBits_cons (B : Bytes) (i : Nat) (l : List Nat) :
    setBits B (i :: l)
      = setBits (B.set (i / 8) (B.getD (i / 8) 0 ||| (1 <<< (i % 8)))) l := by
  rw [setBits, List.foldl_cons]
  rfl

theorem length_setBits (indices : List Nat) :
    ∀ B : Bytes, (setBits B indices).length = B.length := by
  induction indices with
  | nil => intro B; rfl
  | cons i l ih =>
    intro B
    rw [setBits_cons, ih, List.length_set]

theorem getD_set_testBit (B : Bytes) (i j t : Nat) (hi : i / 8 < B.length) :
    ((B.set (i / 8) (B.getD (i / 8) 0 ||| (1 <<< (i % 8)))).getD j 0).testBit t = true ↔
      ((B.getD j 0).testBit t = true ∨ (j = i / 8 ∧ t = i % 8)) := by
  rcases eq_or_ne j (i / 8) with rfl | hne
  · have hv : (B.set (i / 8) (B.getD (i / 8) 0 ||| (1 <<< (i % 8)))).getD (i / 8) 0
        = B.getD (i / 8) 0 ||| (1 <<< (i % 8)) := by
      rw [List.getD_eq_getElem?_getD, List.getElem?_set_self hi, Option.getD_some]
    rw [hv, Nat.shiftLeft_eq, one_mul, Nat.testBit_or, Bool.or_eq_true,
      Nat.testBit_two_pow, decide_eq_true_eq]
    constructor
    · rintro (h | h)
      · exact Or.inl h
      · exact Or.inr ⟨rfl, h.symm⟩
    · rintro (h | ⟨-, h⟩)
      · exact Or.inl h
      · exact Or.inr h.symm
  · have hv : (B.set (i / 8) (B.getD (i / 8) 0 ||| (1 <<< (i % 8)))).getD j 0
        = B.getD j 0 := by
      rw [List.getD_eq_getElem?_getD, List.getElem?_set_ne (Ne.symm hne),
        ← List.getD_eq_getElem?_getD]
    rw [hv]
    constructor
    · exact Or.inl
    · rintro (h | ⟨rfl, -⟩)
      · exact h
      · exact absurd rfl hne

theorem setBits_testBit (indices : List Nat) :
    ∀ B : Bytes, (∀ i ∈ indices, i / 8 < B.length) → ∀ j t,
      (((setBits B indices).getD j 0).testBit t = true ↔
        ((B.getD j 0).testBit t = true ∨ (8 * j + t ∈ indices ∧ t < 8))) := by
  induction indices with
  | nil => intro B _ j t; simp [setBits]
  | cons i l ih =>
    intro B hlen j t
    rw [setBits_cons]
    rw [ih (B.set (i / 8) (B.getD (i / 8) 0 ||| (1 <<< (i % 8)))) (by
        intro a ha
        rw [List.length_set]
        exact hlen a (by simp [ha])),
      getD_set_testBit B i j t (hlen i (by simp))]
    constructor
    · rintro ((h | ⟨rfl, rfl⟩) | ⟨hm, ht⟩)
      · exact Or.inl h
      · exact Or.inr ⟨by simp [Nat.div_add_mod], Nat.mod_lt _ (by norm_num)⟩
      · exact Or.inr ⟨by simp [hm], ht⟩
    · rintro (h | ⟨hm, ht⟩)
      · exact Or.inl (Or.inl h)
      · rcases List.mem_cons.mp hm with heq | hmem
        · refine Or.inl (Or.inr ?_)
          omega
        · exact Or.inr ⟨hmem, ht⟩

theorem setBits_bytes_lt (indices : List Nat) :
    ∀ B : Bytes, (∀ x ∈ B, x < 256) → ∀ x ∈ setBits B indices, x < 256 := by
  induction indices with
  | nil => intro B h; exact h
  | cons i l ih =>
    intro B h
    rw [setBits_cons]
    apply ih
    intro x hx
    rcases List.mem_or_eq_of_mem_set hx with hmem | rfl
    · exact h x hmem
    · have h1 : B.getD (i / 8) 0 < 256 := by
        rw [List.getD_eq_getElem?_getD]
        cases hidx : B[i / 8]? with
        | none => simp
        | some v =>
          simp only [Option.getD_some]
          exact h v (List.getElem?_mem hidx)
      have h2 : 1 <<< (i % 8) < 256 := by
        rw [Nat.shiftLeft_eq, one_mul]
        calc (2 : Nat) ^ (i % 8) < 2 ^ 8 :=
              Nat.pow_lt_pow_right (by norm_num) (Nat.mod_lt _ (by norm_num))
          _ = 256 := by norm_num
      exact Nat.or_lt_two_pow (n := 8) h1 h2

/-- Claim C8: `indices_to_bitmask(S, K)` is `ceil(K/8)` bytes; index `i` is
stored as bit `i % 8` of output byte `ceil(K/8) - 1 - i/8` and no other bit is
set (in particular no bit at a position `≥ K`); concretely
`indices_to_bitmask([0,3,9], 10) = [0x02, 0x09]`. -/
theorem indices_to_bitmask_spec :
    (∀ (S : List Nat) (K : Nat), (∀ i ∈ S, i < K) →
      (indices_to_bitmask S K).length = ceilDiv K 8 ∧
      (∀ x ∈ indices_to_bitmask S K, x < 256) ∧
      (∀ i, i < 8 * ceilDiv K 8 →
        (((indices_to_bitmask S K).getD (ceilDiv K 8 - 1 - i / 8) 0).testBit (i % 8)
            = true ↔ i ∈ S))) ∧
    indices_to_bitmask [0, 3, 9] 10 = [2, 9] := by
  constructor
  · intro S K hlt
    have hlen : (setBits (List.replicate (ceilDiv K 8) 0) S).length = ceilDiv K 8 := by
      rw [length_setBits, List.length_replicate]
    have hdiv : ∀ i ∈ S, i / 8 < (List.replicate (ceilDiv K 8) 0 : Bytes).length := by
      intro i hi
      rw [List.length_replicate]
      have := hlt i hi
      unfold ceilDiv
      omega
    refine ⟨by rw [indices_to_bitmask, List.length_reverse, hlen], ?_, ?_⟩
    · intro x hx
      rw [indices_to_bitmask, List.mem_reverse] at hx
      exact setBits_bytes_lt S _ (by simp) x hx
    · intro i hi
      have hj : i / 8 < ceilDiv K 8 := by omega
      have hrev : (indices_to_bitmask S K).getD (ceilDiv K 8 - 1 - i / 8) 0
          = (setBits (List.replicate (ceilDiv K 8) 0) S).getD (i / 8) 0 := by
        rw [indices_to_bitmask, List.getD_eq_getElem?_getD,
          List.getElem?_reverse (by rw [hlen]; omega), hlen]
        have : ceilDiv K 8 - 1 - (ceilDiv K 8 - 1 - i / 8) = i / 8 := by omega
        rw [this, ← List.getD_eq_getElem?_getD]
      rw [hrev, setBits_testBit S _ hdiv (i / 8) (i % 8)]
      have hzero : ((List.replicate (ceilDiv K 8) 0 : Bytes).getD (i / 8) 0).testBit
          (i % 8) = false := by
        rw [List.getD_eq_getElem?_getD, List.getElem?_replicate]
        split <;> simp
      rw [Nat.div_add_mod i 8]
      simp [hzero, Nat.mod_lt _ (show 0 < 8 by norm_num)]
  · rfl

/-- Witness for the universally quantified part of `indices_to_bitmask_spec`:
at `S = [0,3,9]`, `K = 10` the bitmask has the claimed length and bit 1 of
output byte 0 answers membership of index 9. -/
theorem indices_to_bitmask_spec_witness :
    (indices_to_bitmask [0, 3, 9] 10).length = ceilDiv 10 8 ∧
      (((indices_to_bitmask [0, 3, 9] 10).getD (ceilDiv 10 8 - 1 - 9 / 8) 0).testBit
          (9 % 8) = true ↔ 9 ∈ [0, 3, 9]) := by
  have h := (indices_to_bitmask_spec).1 [0, 3, 9] 10 (by decide)
  exact ⟨h.1, h.2.2 9 (by decide)⟩

/-! ### Frame codec: bitmask decoding (`readcodes_zbar.py`, `bitmask_to_indices`)

The Python code walks the reversed bitmask byte by byte, bit 0 to bit 7,
incrementing a running index and returning early once the index reaches
`num_blocks`. -/

/-- The inner `for bit in range(8)` loop of `bitmask_to_indices`; the `Bool`
records whether the `idx >= num_blocks` early return fired. -/
def byte_loop (byte num_blocks : Nat) : List Nat → Nat → List Nat × Bool
  | [], _ => ([], false)
  | bit :: bits, idx =>
    if num_blocks ≤ idx then ([], true)
    else
      let p := byte_loop byte num_blocks bits (idx + 1)
      ((if byte &&& (1 <<< bit) ≠ 0 then idx :: p.1 else p.1), p.2)

/-- The outer `for byte in reversed(bitmask)` loop of `bitmask_to_indices`. -/
def outer_loop (num_blocks : Nat) : List Nat → Nat → List Nat
  | [], _ => []
  | byte :: rest, idx =>
    let p := byte_loop byte num_blocks (List.range 8) idx
    if p.2 then p.1 else p.1 ++ outer_loop num_blocks rest (idx + 8)

/-- `bitmask_to_indices(bitmask, num_blocks)` from `readcodes_zbar.py`. -/
def bitmask_to_indices (bitmask : Bytes) (num_blocks : Nat) : List Nat :=
  outer_loop num_blocks bitmask.reverse 0

theorem and_shiftLeft_ne_zero (x i : Nat) :
    (x &&& (1 <<< i) ≠ 0) ↔ x.testBit i = true := by
  rw [Nat.shiftLeft_eq, one_mul]
  constructor
  · intro h
    by_contra hb
    apply h
    apply Nat.zero_of_testBit_eq_false
    intro j
    rw [Nat.testBit_and]
    rcases eq_or_ne i j with rfl | hij
    · rw [Bool.eq_false_iff.mpr hb]
      rfl
    · rw [Nat.testBit_two_pow_of_ne hij, Bool.and_false]
  · intro h hzero
    have h2 := congrArg (fun n => n.testBit i) hzero
    simp only [Nat.testBit_and, h, Nat.testBit_two_pow_self, Bool.and_self,
      Nat.zero_testBit] at h2
    cases h2

theorem byte_loop_fst (byte nb : Nat) :
    ∀ (n b idx : Nat),
      (byte_loop byte nb (List.range' b n) idx).1 =
        ((List.range n).filter
            (fun t => decide (idx + t < nb) && byte.testBit (b + t))).map
          (fun t => idx + t) := by
  intro n
  induction n with
  | zero => intro b idx; rfl
  | succ n ih =>
    intro b idx
    rw [List.range'_succ, byte_loop]
    by_cases hle : nb ≤ idx
    · rw [if_pos hle]
      have : ∀ t ∈ List.range (n + 1),
          (decide (idx + t < nb) && byte.testBit (b + t)) = false := by
        intro t _
        have : decide (idx + t < nb) = false := by
          apply decide_eq_false
          omega
        rw [this, Bool.false_and]
      rw [List.filter_eq_nil_iff.mpr (fun t ht => by rw [this t ht]; simp)]
      rfl
    · rw [if_neg hle]
      show (if byte &&& (1 <<< b) ≠ 0 then idx :: _ else _) = _
      rw [List.range_succ_eq_map, List.filter_cons]
      have hd0 : (decide (idx + 0 < nb) && byte.testBit (b + 0))
          = decide (byte.testBit b = true) := by
        have h1 : decide (idx + 0 < nb) = true := by
          apply decide_eq_true
          omega
        rw [h1, Bool.true_and, Nat.add_zero]
        cases hbit : byte.testBit b <;> simp
      rw [hd0]
      have hfm : (List.map Nat.succ (List.range n)).filter
            (fun t => decide (idx + t < nb) && byte.testBit (b + t))
          = List.map Nat.succ ((List.range n).filter
              (fun t => decide ((idx + 1) + t < nb) && byte.testBit ((b + 1) + t))) := by
        rw [List.filter_map]
        congr 1
        apply List.filter_congr
        intro t _
        show (decide (idx + (t + 1) < nb) && byte.testBit (b + (t + 1))) = _
        have e1 : idx + (t + 1) = (idx + 1) + t := by omega
        have e2 : b + (t + 1) = (b + 1) + t := by omega
        rw [e1, e2]
      by_cases hbit : byte.testBit b = true
      · rw [if_pos ((and_shiftLeft_ne_zero byte b).mpr hbit), if_pos (by
          rw [decide_eq_true hbit])]
        rw [ih (b + 1) (idx + 1), hfm, List.map_cons, List.map_map, Nat.add_zero]
        exact congrArg (fun l => idx :: l)
          (List.map_congr_left (fun a _ => by
            simp only [Function.comp_apply]
            omega))
      · rw [if_neg (fun hc => hbit ((and_shiftLeft_ne_zero byte b).mp hc)), if_neg (by
          rw [decide_eq_false hbit]; exact Bool.false_ne_true)]
        rw [ih (b + 1) (idx + 1), hfm, List.map_map]
        apply List.map_congr_left
        intro a _
        simp only [Function.comp_apply]
        omega

theorem byte_loop_snd (byte nb : Nat) :
    ∀ (bits : List Nat) (idx : Nat), idx ≤ nb →
      (byte_loop byte nb bits idx).2 = decide (nb < idx + bits.length) := by
  intro bits
  induction bits with
  | nil =>
    intro idx h
    show false = decide (nb < idx + 0)
    rw [decide_eq_false (by omega)]
  | cons bit bits ih =>
    intro idx h
    rw [byte_loop]
    by_cases hle : nb ≤ idx
    · rw [if_pos hle, decide_eq_true (by simp; omega)]
    · rw [if_neg hle]
      show (byte_loop byte nb bits (idx + 1)).2 = _
      rw [ih (idx + 1) (by omega)]
      congr 1
      simp
      omega

theorem outer_loop_eq (nb : Nat) :
    ∀ (bl : List Nat) (idx : Nat), idx ≤ nb →
      outer_loop nb bl idx
        = ((List.range (8 * bl.length)).filter
            (fun t => decide (idx + t < nb) && (bl.getD (t / 8) 0).testBit (t % 8))).map
            (fun t => idx + t) := by
  intro bl
  induction bl with
  | nil => intro idx _; rfl
  | cons byte rest ih =>
    intro idx hidx
    have hsnd : (byte_loop byte nb (List.range 8) idx).2 = decide (nb < idx + 8) := by
      rw [byte_loop_snd byte nb (List.range 8) idx hidx, List.length_range]
    have hfst : (byte_loop byte nb (List.range 8) idx).1
        = ((List.range 8).filter
            (fun t => decide (idx + t < nb) && byte.testBit (0 + t))).map
            (fun t => idx + t) := by
      rw [List.range_eq_range' 8, byte_loop_fst byte nb 8 0 idx,
        ← List.range_eq_range' 8]
    have hr : List.range (8 * (byte :: rest).length)
        = List.range 8 ++ (List.range (8 * rest.length)).map (8 + ·) := by
      rw [show 8 * (byte :: rest).length = 8 + 8 * rest.length by
        simp [List.length_cons]; ring]
      exact List.range_add 8 (8 * rest.length)
    have hfirst : (List.range 8).filter
          (fun t => decide (idx + t < nb) && ((byte :: rest).getD (t / 8) 0).testBit (t % 8))
        = (List.range 8).filter
            (fun t => decide (idx + t < nb) && byte.testBit (0 + t)) := by
      apply List.filter_congr
      intro t ht
      have ht8 : t < 8 := List.mem_range.mp ht
      rw [Nat.div_eq_of_lt ht8, Nat.mod_eq_of_lt ht8, List.getD_cons_zero, Nat.zero_add]
    have hsecond : ((List.range (8 * rest.length)).map (8 + ·)).filter
          (fun t => decide (idx + t < nb) && ((byte :: rest).getD (t / 8) 0).testBit (t % 8))
        = ((List.range (8 * rest.length)).filter
            (fun t => decide ((idx + 8) + t < nb)
              && (rest.getD (t / 8) 0).testBit (t % 8))).map (8 + ·) := by
      rw [List.filter_map]
      congr 1
      apply List.filter_congr
      intro t _
      simp only [Function.comp_apply]
      have e1 : idx + (8 + t) = (idx + 8) + t := by omega
      have e2 : (8 + t) / 8 = t / 8 + 1 := by omega
      have e3 : (8 + t) % 8 = t % 8 := Nat.add_mod_left 8 t
      rw [e1, e2, e3, List.getD_cons_succ]
    simp only [outer_loop]
    rw [hsnd, hfst, hr, List.filter_append, hfirst, hsecond]
    by_cases hflag : nb < idx + 8
    · rw [if_pos (decide_eq_true hflag)]
      have hnil : (List.range (8 * rest.length)).filter
            (fun t => decide ((idx + 8) + t < nb)
              && (rest.getD (t / 8) 0).testBit (t % 8)) = [] := by
        apply List.filter_eq_nil_iff.mpr
        intro t _
        have hf : decide ((idx + 8) + t < nb) = false := decide_eq_false (by omega)
        rw [hf, Bool.false_and]
        exact Bool.false_ne_true
      rw [hnil, List.map_nil, List.append_nil]
    · rw [if_neg (fun hc => hflag (of_decide_eq_true hc))]
      rw [ih (idx + 8) (by omega), List.map_append, List.map_map]
      congr 1
      apply List.map_congr_left
      intro t _
      simp only [Function.comp_apply]
      omega

theorem replicate_zero_getD_testBit (L j t : Nat) :
    ((List.replicate L (0 : Nat)).getD j 0).testBit t = false := by
  rw [List.getD_eq_getElem?_getD, List.getElem?_replicate]
  split <;> simp

/-- Claim C10: `bitmask_to_indices` is total on arbitrary byte strings and
block counts: the result is strictly increasing and all entries are below
`num_blocks`. -/
theorem bitmask_to_indices_total (bm : Bytes) (num_blocks : Nat) :
    List.Pairwise (· < ·) (bitmask_to_indices bm num_blocks) ∧
      ∀ x ∈ bitmask_to_indices bm num_blocks, x < num_blocks := by
  rw [bitmask_to_indices, outer_loop_eq num_blocks bm.reverse 0 (Nat.zero_le _),
    List.map_congr_left (fun a _ => Nat.zero_add a), List.map_id']
  constructor
  · exact List.Pairwise.filter _ (List.pairwise_lt_range _)
  · intro x hx
    have h := (List.mem_filter.mp hx).2
    rcases Bool.and_eq_true_iff.mp h with ⟨h1, -⟩
    have := of_decide_eq_true h1
    omega

/-- Witness-free check that `bitmask_to_indices` ignores bits at positions
`≥ num_blocks` in practice: `0xFF 0xFF` with 3 blocks decodes to `[0,1,2]`. -/
theorem bitmask_to_indices_example : bitmask_to_indices [255, 255] 3 = [0, 1, 2] := by
  rfl

/-- Claim C9: decoding the bitmask encoding of any set `S` of distinct indices
below `K` returns exactly the elements of `S` in ascending order. -/
theorem frame_roundtrip (S : List Nat) (K : Nat) (hnd : S.Nodup)
    (hlt : ∀ i ∈ S, i < K) :
    (bitmask_to_indices (indices_to_bitmask S K) K).Perm S ∧
      List.Pairwise (· < ·) (bitmask_to_indices (indices_to_bitmask S K) K) := by
  have hKL : K ≤ 8 * ceilDiv K 8 := by
    unfold ceilDiv
    omega
  have hdiv : ∀ i ∈ S, i / 8 < (List.replicate (ceilDiv K 8) 0 : Bytes).length := by
    intro i hi
    rw [List.length_replicate]
    have := hlt i hi
    unfold ceilDiv
    omega
  have hB := setBits_testBit S (List.replicate (ceilDiv K 8) 0) hdiv
  have hlenB : (setBits (List.replicate (ceilDiv K 8) 0) S).length = ceilDiv K 8 := by
    rw [length_setBits, List.length_replicate]
  have hres : bitmask_to_indices (indices_to_bitmask S K) K
      = (List.range (8 * ceilDiv K 8)).filter (fun t => decide (t ∈ S)) := by
    rw [bitmask_to_indices, indices_to_bitmask, List.reverse_reverse,
      outer_loop_eq K _ 0 (Nat.zero_le _),
      List.map_congr_left (fun a _ => Nat.zero_add a), List.map_id', hlenB]
    apply List.filter_congr
    intro t _
    have hbit : ((setBits (List.replicate (ceilDiv K 8) 0) S).getD (t / 8) 0).testBit
        (t % 8) = true ↔ t ∈ S := by
      rw [hB (t / 8) (t % 8), replicate_zero_getD_testBit]
      have ht : 8 * (t / 8) + t % 8 = t := by omega
      rw [ht]
      simp [Nat.mod_lt t (show 0 < 8 by norm_num)]
    by_cases hts : t ∈ S
    · rw [decide_eq_true (show 0 + t < K by have := hlt t hts; omega),
        Bool.true_and, hbit.mpr hts, decide_eq_true hts]
    · rw [decide_eq_false hts]
      cases hbitv : ((setBits (List.replicate (ceilDiv K 8) 0) S).getD (t / 8) 0).testBit
          (t % 8) with
      | false => rw [Bool.and_false]
      | true => exact absurd (hbit.mp hbitv) hts
  rw [hres]
  have hpw : List.Pairwise (· < ·)
      ((List.range (8 * ceilDiv K 8)).filter (fun t => decide (t ∈ S))) :=
    List.Pairwise.filter _ (List.pairwise_lt_range _)
  refine ⟨?_, hpw⟩
  rw [List.perm_ext_iff_of_nodup (hpw.imp (fun hab => Nat.ne_of_lt hab)) hnd]
  intro a
  rw [List.mem_filter, List.mem_range, decide_eq_true_eq]
  constructor
  · exact fun h => h.2
  · intro h
    exact ⟨by have := hlt a h; omega, h⟩

/-- Witness for `frame_roundtrip` at `S = [0,3,9]`, `K = 10`. -/
theorem frame_roundtrip_witness :
    (bitmask_to_indices (indices_to_bitmask [0, 3, 9] 10) 10).Perm [0, 3, 9] ∧
      List.Pairwise (· < ·) (bitmask_to_indices (indices_to_bitmask [0, 3, 9] 10) 10) :=
  frame_roundtrip [0, 3, 9] 10 (by decide) (by decide)

/-! ### Decoder (`tools.py`, class `LTDecoder`)

The mutable Python decoder becomes an explicit state record.  `recovered` (an
insertion-ordered dict) becomes an association list, `block_to_packets` (a
defaultdict of sets of packet ids) a function to duplicate-free lists, and the
`while self.ripple` loop of `_peel` runs on a fuel argument that provably
dominates a strictly decreasing measure of the loop. -/

structure DecState where
  num_blocks : Nat
  recovered : List (Nat × Bytes)
  packets : List (List Nat × Bytes)
  blockToPackets : Nat → List Nat
  ripple : List Nat

namespace LTDecoder

/-- `LTDecoder.__init__(num_blocks)`: everything starts empty. -/
def init (num_blocks : Nat) : DecState :=
  ⟨num_blocks, [], [], fun _ => [], []⟩

/-- Python's `set.add` on the packet-id sets of `block_to_packets`. -/
def insertId (l : List Nat) (pid : Nat) : List Nat :=
  if pid ∈ l then l else l ++ [pid]

/-- `LTDecoder._add_to_ripple(block_idx, pkt)`: record the block as recovered
(freezing a copy of the buffer) and enqueue it, unless already recovered. -/
def addToRipple (s : DecState) (b : Nat) (pkt : Bytes) : DecState :=
  match s.recovered.lookup b with
  | some _ => s
  | none =>
    { s with recovered := s.recovered ++ [(b, pkt)], ripple := s.ripple ++ [b] }

/-- `if len(indices) == 1: self._add_to_ripple(indices[0], pkt)` — the
singleton-release step shared by `add_packet` and `_peel`. -/
def releaseIfSingleton (s : DecState) (indices' : List Nat) (pkt' : Bytes) :
    DecState :=
  match indices' with
  | [n] => addToRipple s n pkt'
  | _ => s

/-- The `if b in indices` body of `_peel`'s inner loop: remove `b` from the
packet, XOR the recovered block into the buffer, fix the adjacency, and
release a new singleton. -/
def processPacketAux (b : Nat) (rb : Bytes) (s : DecState) (pid : Nat)
    (indices : List Nat) (pkt : Bytes) : DecState :=
  if b ∈ indices then
    releaseIfSingleton
      { s with
        packets := s.packets.set pid (indices.erase b, xorB pkt rb),
        blockToPackets := fun j =>
          if j = b then (s.blockToPackets j).erase pid else s.blockToPackets j }
      (indices.erase b) (xorB pkt rb)
  else s

/-- Body of `_peel`'s inner `for packet_id in list(self.block_to_packets[b])`
loop. -/
def processPacket (b : Nat) (rb : Bytes) (s : DecState) (pid : Nat) : DecState :=
  match s.packets[pid]? with
  | none => s
  | some (indices, pkt) => processPacketAux b rb s pid indices pkt

/-- One iteration of `_peel`'s `while self.ripple` loop: pop `b` and process a
snapshot of `block_to_packets[b]` against `recovered[b]`. -/
def processBlock (s : DecState) (b : Nat) : DecState :=
  let rb := (s.recovered.lookup b).getD []
  (s.blockToPackets b).foldl (processPacket b rb) s

/-- `LTDecoder._peel()` with explicit fuel for the while loop. -/
def peelF : Nat → DecState → DecState
  | 0, s => s
  | fuel + 1, s =>
    match s.ripple with
    | [] => s
    | b :: rest => peelF fuel (processBlock { s with ripple := rest } b)

/-- Number of distinct unrecovered block indices mentioned by residual
packets; part of the termination measure of `_peel`. -/
def unrecCount (s : DecState) : Nat :=
  ((s.packets.flatMap Prod.fst).toFinset.filter
    (fun i => (s.recovered.lookup i).isNone)).card

/-- Strictly decreasing measure of `_peel`'s while loop. -/
def peelMeasure (s : DecState) : Nat := s.ripple.length + 2 * unrecCount s

/-- `LTDecoder._peel()`: the loop always terminates; `peelMeasure` dominates
the number of iterations, so this fuel runs it to quiescence. -/
def peel (s : DecState) : DecState := peelF (peelMeasure s) s

/-- Steps 2–3 of `add_packet` on the residual `(new_indices, pkt)`: return on
a redundant packet, otherwise append the packet, update the adjacency,
release a singleton, and peel. -/
def add_packet_push (s : DecState) (newIndices : List Nat) (pkt : Bytes) :
    DecState :=
  if newIndices = [] then s
  else
    peel (releaseIfSingleton
      { s with
        packets := s.packets ++ [(newIndices, pkt)],
        blockToPackets :=
          newIndices.foldl
            (fun f i => fun j =>
              if j = i then insertId (f j) s.packets.length else f j)
            s.blockToPackets }
      newIndices pkt)

/-- `LTDecoder.add_packet(indices, pkt)`: eliminate recovered blocks (step 1),
then insert the residual packet and peel. -/
def add_packet (s : DecState) (indices : List Nat) (pkt0 : Bytes) : DecState :=
  let step1 := indices.foldl
    (fun (acc : List Nat × Bytes) i =>
      match s.recovered.lookup i with
      | some rb => (acc.1, xorB acc.2 rb)
      | none => (acc.1 ++ [i], acc.2))
    ([], pkt0)
  add_packet_push s step1.1 step1.2

/-- `LTDecoder.is_complete()`: all `num_blocks` dictionary keys present. -/
def is_complete (s : DecState) : Bool := s.recovered.length == s.num_blocks

/-- Feed a list of packets through `add_packet` in order. -/
def ingest_all (s : DecState) (pkts : List (List Nat × Bytes)) : DecState :=
  pkts.foldl (fun t pr => add_packet t pr.1 pr.2) s

end LTDecoder

/-! ### Association-list and XOR-fold helper lemmas -/

theorem lookup_cons_nat (a k : Nat) (v : Bytes) (es : List (Nat × Bytes)) :
    ((k, v) :: es).lookup a = if a = k then some v else es.lookup a := by
  rw [List.lookup_cons]
  by_cases h : a = k
  · subst h
    simp
  · have hb : (a == k) = false := by simp [h]
    rw [hb, if_neg h]

theorem lookup_append (k : Nat) (l1 l2 : List (Nat × Bytes)) :
    (l1 ++ l2).lookup k = ((l1.lookup k).or (l2.lookup k)) := by
  induction l1 with
  | nil => rfl
  | cons p l1 ih =>
    obtain ⟨a, v⟩ := p
    rw [List.cons_append, lookup_cons_nat, lookup_cons_nat]
    by_cases h : k = a
    · rw [if_pos h, if_pos h]
      rfl
    · rw [if_neg h, if_neg h]
      exact ih

theorem lookup_append_left {k : Nat} {v : Bytes} {l1 : List (Nat × Bytes)}
    (l2 : List (Nat × Bytes)) (h : l1.lookup k = some v) :
    (l1 ++ l2).lookup k = some v := by
  rw [lookup_append, h]
  rfl

theorem lookup_append_none {k : Nat} {l1 l2 : List (Nat × Bytes)}
    (h : (l1 ++ l2).lookup k = none) : l1.lookup k = none := by
  rw [lookup_append] at h
  cases hv : l1.lookup k with
  | none => rfl
  | some v => rw [hv] at h; exact absurd h (by simp [Option.or])

theorem lookup_eq_none_iff (k : Nat) (l : List (Nat × Bytes)) :
    l.lookup k = none ↔ k ∉ l.map Prod.fst := by
  induction l with
  | nil => simp
  | cons p l ih =>
    obtain ⟨a, v⟩ := p
    rw [lookup_cons_nat]
    by_cases h : k = a
    · subst h
      simp
    · rw [if_neg h, ih]
      simp [h]

theorem lookup_isSome_of_mem_keys {k : Nat} {l : List (Nat × Bytes)}
    (h : k ∈ l.map Prod.fst) : (l.lookup k).isSome = true := by
  cases hv : l.lookup k with
  | some v => rfl
  | none => exact absurd h (by rw [← lookup_eq_none_iff k l]; exact hv)

theorem keys_append_nodup {l : List (Nat × Bytes)} {n : Nat} {v : Bytes}
    (hnd : (l.map Prod.fst).Nodup) (hnone : l.lookup n = none) :
    ((l ++ [(n, v)]).map Prod.fst).Nodup := by
  rw [List.map_append]
  refine List.Nodup.append hnd (by simp) ?_
  intro a ha hb
  simp only [List.map_cons, List.map_nil, List.mem_singleton] at hb
  subst hb
  exact (lookup_eq_none_iff _ l).mp hnone ha

theorem xor_blocks_cons (f : Bytes) (bs i : Nat) (l : List Nat) :
    xor_blocks f bs (i :: l) = xorB (block_at f bs i) (xor_blocks f bs l) := rfl

theorem xor_blocks_singleton (f : Bytes) (bs n : Nat) :
    xor_blocks f bs [n] = block_at f bs n := by
  rw [xor_blocks_cons]
  show xorB (block_at f bs n) (List.replicate bs 0) = block_at f bs n
  rw [show List.replicate bs (0 : Nat) = List.replicate (block_at f bs n).length 0 by
    rw [length_block_at]]
  exact xorB_zero_right _

theorem xor_blocks_erase (f : Bytes) (bs : Nat) :
    ∀ (l : List Nat) (b : Nat), b ∈ l →
      xor_blocks f bs l = xorB (block_at f bs b) (xor_blocks f bs (l.erase b)) := by
  intro l
  induction l with
  | nil => intro b hb; cases hb
  | cons a l ih =>
    intro b hb
    by_cases hab : a = b
    · subst hab
      rw [List.erase_cons_head]
      rfl
    · have hbl : b ∈ l := by
        rcases List.mem_cons.mp hb with h | h
        · exact absurd (show a = b by omega) hab
        · exact h
      rw [List.erase_cons_tail (by simpa using hab),
        xor_blocks_cons, ih b hbl, xor_blocks_cons, xorB_left_comm]

theorem xorB_xor_blocks_erase (f : Bytes) (bs : Nat) (l : List Nat) (b : Nat)
    (hb : b ∈ l) :
    xorB (xor_blocks f bs l) (block_at f bs b) = xor_blocks f bs (l.erase b) := by
  rw [xor_blocks_erase f bs l b hb]
  exact xorB_cancel_right _ _ (by rw [length_block_at, length_xor_blocks])


namespace LTDecoder

/-! ### Termination of the `_peel` while loop -/

theorem flatMap_set_subset (packets : List (List Nat × Bytes)) (pid : Nat)
    (indices indices' : List Nat) (pkt pkt' : Bytes)
    (hget : packets[pid]? = some (indices, pkt))
    (hsub : ∀ i ∈ indices', i ∈ indices) :
    ∀ i ∈ (packets.set pid (indices', pkt')).flatMap Prod.fst,
      i ∈ packets.flatMap Prod.fst := by
  intro i hi
  rw [List.mem_flatMap] at hi ⊢
  obtain ⟨pr, hpr, hipr⟩ := hi
  rcases List.mem_or_eq_of_mem_set hpr with hmem | rfl
  · exact ⟨pr, hmem, hipr⟩
  · exact ⟨(indices, pkt), List.getElem?_mem hget, hsub i hipr⟩

theorem unrecCount_le_of_set {s : DecState} {pid : Nat}
    {indices indices' : List Nat} {pkt pkt' : Bytes} {f' : Nat → List Nat}
    (hget : s.packets[pid]? = some (indices, pkt))
    (hsub : ∀ i ∈ indices', i ∈ indices) :
    unrecCount
        { s with packets := s.packets.set pid (indices', pkt'),
                 blockToPackets := f' }
      ≤ unrecCount s := by
  apply Finset.card_le_card
  intro i hi
  rw [Finset.mem_filter] at hi ⊢
  refine ⟨?_, hi.2⟩
  rw [List.mem_toFinset]
  exact flatMap_set_subset s.packets pid indices indices' pkt pkt' hget hsub
    i (List.mem_toFinset.mp hi.1)

theorem peelMeasure_extend_le (s : DecState) (n : Nat) (pkt' : Bytes)
    (hl : s.recovered.lookup n = none) (hn : n ∈ s.packets.flatMap Prod.fst) :
    peelMeasure
        { s with recovered := s.recovered ++ [(n, pkt')],
                 ripple := s.ripple ++ [n] }
      ≤ peelMeasure s := by
  have hmem : n ∈ (s.packets.flatMap Prod.fst).toFinset.filter
      (fun i => (s.recovered.lookup i).isNone) :=
    Finset.mem_filter.mpr ⟨List.mem_toFinset.mpr hn, by rw [hl]; rfl⟩
  have hsub : ((s.packets.flatMap Prod.fst).toFinset.filter
        (fun i => ((s.recovered ++ [(n, pkt')]).lookup i).isNone))
      ⊆ ((s.packets.flatMap Prod.fst).toFinset.filter
        (fun i => (s.recovered.lookup i).isNone)).erase n := by
    intro i hi
    rw [Finset.mem_filter] at hi
    rw [Finset.mem_erase, Finset.mem_filter]
    have hnone : (s.recovered ++ [(n, pkt')]).lookup i = none := by
      cases hx : (s.recovered ++ [(n, pkt')]).lookup i with
      | none => rfl
      | some v => rw [hx] at hi; exact absurd hi.2 (by simp)
    have hin : i ≠ n := by
      intro hEq
      subst hEq
      rw [lookup_append, hl] at hnone
      simp [lookup_cons_nat, Option.or] at hnone
    exact ⟨hin, hi.1, by rw [lookup_append_none hnone]; rfl⟩
  have hcard := Finset.card_le_card hsub
  rw [Finset.card_erase_of_mem hmem] at hcard
  have hpos : 0 < ((s.packets.flatMap Prod.fst).toFinset.filter
      (fun i => (s.recovered.lookup i).isNone)).card :=
    Finset.card_pos.mpr ⟨n, hmem⟩
  show (s.ripple ++ [n]).length
        + 2 * ((s.packets.flatMap Prod.fst).toFinset.filter
            (fun i => ((s.recovered ++ [(n, pkt')]).lookup i).isNone)).card
      ≤ s.ripple.length
        + 2 * ((s.packets.flatMap Prod.fst).toFinset.filter
            (fun i => (s.recovered.lookup i).isNone)).card
  rw [List.length_append]
  simp only [List.length_cons, List.length_nil]
  omega

theorem peelMeasure_addToRipple_le (s : DecState) (n : Nat) (pkt' : Bytes)
    (hn : n ∈ s.packets.flatMap Prod.fst) :
    peelMeasure (addToRipple s n pkt') ≤ peelMeasure s := by
  unfold addToRipple
  cases hl : s.recovered.lookup n with
  | some v => exact le_refl _
  | none => exact peelMeasure_extend_le s n pkt' hl hn

theorem peelMeasure_releaseIfSingleton_le (s : DecState) (indices' : List Nat)
    (pkt' : Bytes) (hn : ∀ n, indices' = [n] → n ∈ s.packets.flatMap Prod.fst) :
    peelMeasure (releaseIfSingleton s indices' pkt') ≤ peelMeasure s := by
  unfold releaseIfSingleton
  cases indices' with
  | nil => exact le_refl _
  | cons n tail =>
    cases tail with
    | nil => exact peelMeasure_addToRipple_le s n pkt' (hn n rfl)
    | cons m tail2 => exact le_refl _

theorem peelMeasure_processPacketAux_le (b : Nat) (rb : Bytes) (s : DecState)
    (pid : Nat) (indices : List Nat) (pkt : Bytes)
    (hget : s.packets[pid]? = some (indices, pkt)) :
    peelMeasure (processPacketAux b rb s pid indices pkt) ≤ peelMeasure s := by
  unfold processPacketAux
  by_cases hb : b ∈ indices
  · rw [if_pos hb]
    have hpidlt : pid < s.packets.length := by
      by_contra hge
      rw [List.getElem?_eq_none (by omega)] at hget
      cases hget
    have hsetle :
        peelMeasure
          { s with
            packets := s.packets.set pid (indices.erase b, xorB pkt rb),
            blockToPackets := fun j =>
              if j = b then (s.blockToPackets j).erase pid
              else s.blockToPackets j }
          ≤ peelMeasure s := by
      have hcnt := @unrecCount_le_of_set s pid indices (indices.erase b)
        pkt (xorB pkt rb)
        (fun j => if j = b then (s.blockToPackets j).erase pid
          else s.blockToPackets j)
        hget (fun i hi => List.mem_of_mem_erase hi)
      unfold peelMeasure
      have hrip : ({ s with
          packets := s.packets.set pid (indices.erase b, xorB pkt rb),
          blockToPackets := fun j =>
            if j = b then (s.blockToPackets j).erase pid
            else s.blockToPackets j } : DecState).ripple = s.ripple := rfl
      rw [hrip]
      omega
    refine le_trans (peelMeasure_releaseIfSingleton_le _ _ _ ?_) hsetle
    intro n hEq
    rw [List.mem_flatMap]
    exact ⟨(indices.erase b, xorB pkt rb),
      List.getElem?_mem (by rw [List.getElem?_set_self hpidlt]),
      by rw [hEq]; simp⟩
  · rw [if_neg hb]

theorem peelMeasure_processPacket_le (b : Nat) (rb : Bytes) (s : DecState)
    (pid : Nat) : peelMeasure (processPacket b rb s pid) ≤ peelMeasure s := by
  unfold processPacket
  cases hget : s.packets[pid]? with
  | none => exact le_refl _
  | some pr =>
    obtain ⟨indices, pkt⟩ := pr
    exact peelMeasure_processPacketAux_le b rb s pid indices pkt hget

theorem peelMeasure_processBlock_lt (s : DecState) (b : Nat) (rest : List Nat)
    (hrip : s.ripple = b :: rest) :
    peelMeasure (processBlock { s with ripple := rest } b) < peelMeasure s := by
  have hfold : ∀ (rb : Bytes) (L : List Nat) (t : DecState),
      peelMeasure (L.foldl (processPacket b rb) t) ≤ peelMeasure t := by
    intro rb L
    induction L with
    | nil => intro t; exact le_refl _
    | cons x L ih =>
      intro t
      exact le_trans (ih _) (peelMeasure_processPacket_le b rb t x)
  refine lt_of_le_of_lt (hfold _ _ _) ?_
  show peelMeasure { s with ripple := rest } < peelMeasure s
  unfold peelMeasure
  have hu : unrecCount { s with ripple := rest } = unrecCount s := rfl
  rw [hu, hrip]
  simp

theorem peelF_ripple_eq_nil : ∀ (fuel : Nat) (s : DecState),
    peelMeasure s ≤ fuel → (peelF fuel s).ripple = [] := by
  intro fuel
  induction fuel with
  | zero =>
    intro s h
    have hlen : s.ripple.length = 0 := by
      unfold peelMeasure at h
      omega
    show s.ripple = []
    exact List.length_eq_zero.mp hlen
  | succ fuel ih =>
    intro s h
    rw [peelF]
    cases hrip : s.ripple with
    | nil => exact hrip
    | cons b rest =>
      apply ih
      have := peelMeasure_processBlock_lt s b rest hrip
      omega

theorem peel_ripple_eq_nil (s : DecState) : (peel s).ripple = [] :=
  peelF_ripple_eq_nil (peelMeasure s) s (le_refl _)

/-! ### `recovered` entries are write-once -/

theorem lookup_addToRipple_mono {s : DecState} {b' : Nat} {v : Bytes}
    (b : Nat) (pkt : Bytes) (h : s.recovered.lookup b' = some v) :
    (addToRipple s b pkt).recovered.lookup b' = some v := by
  unfold addToRipple
  cases s.recovered.lookup b with
  | some w => exact h
  | none => exact lookup_append_left _ h

theorem lookup_releaseIfSingleton_mono {s : DecState} {b' : Nat} {v : Bytes}
    (indices' : List Nat) (pkt' : Bytes) (h : s.recovered.lookup b' = some v) :
    (releaseIfSingleton s indices' pkt').recovered.lookup b' = some v := by
  unfold releaseIfSingleton
  cases indices' with
  | nil => exact h
  | cons n tail =>
    cases tail with
    | nil => exact lookup_addToRipple_mono n _ h
    | cons m tail2 => exact h

theorem lookup_processPacket_mono {s : DecState} {b' : Nat} {v : Bytes}
    (b : Nat) (rb : Bytes) (pid : Nat) (h : s.recovered.lookup b' = some v) :
    (processPacket b rb s pid).recovered.lookup b' = some v := by
  unfold processPacket
  cases s.packets[pid]? with
  | none => exact h
  | some pr =>
    obtain ⟨indices, pkt⟩ := pr
    show (processPacketAux b rb s pid indices pkt).recovered.lookup b' = some v
    unfold processPacketAux
    by_cases hb : b ∈ indices
    · rw [if_pos hb]
      exact lookup_releaseIfSingleton_mono _ _ h
    · rw [if_neg hb]
      exact h

theorem lookup_processBlock_mono {s : DecState} {b' : Nat} {v : Bytes}
    (b : Nat) (h : s.recovered.lookup b' = some v) :
    (processBlock s b).recovered.lookup b' = some v := by
  unfold processBlock
  generalize (s.recovered.lookup b).getD [] = rb
  have hfold : ∀ (L : List Nat) (t : DecState), t.recovered.lookup b' = some v →
      ((L.foldl (processPacket b rb) t).recovered.lookup b') = some v := by
    intro L
    induction L with
    | nil => intro t ht; exact ht
    | cons x L ih =>
      intro t ht
      exact ih _ (lookup_processPacket_mono b rb x ht)
  exact hfold _ s h

theorem lookup_peelF_mono {b' : Nat} {v : Bytes} :
    ∀ (fuel : Nat) (s : DecState), s.recovered.lookup b' = some v →
      (peelF fuel s).recovered.lookup b' = some v := by
  intro fuel
  induction fuel with
  | zero => intro s h; exact h
  | succ fuel ih =>
    intro s h
    rw [peelF]
    cases hrip : s.ripple with
    | nil => exact h
    | cons b rest => exact ih _ (lookup_processBlock_mono b h)

theorem lookup_add_packet_push_mono {s : DecState} {b' : Nat} {v : Bytes}
    (newI : List Nat) (pkt : Bytes) (h : s.recovered.lookup b' = some v) :
    (add_packet_push s newI pkt).recovered.lookup b' = some v := by
  unfold add_packet_push
  by_cases hemp : newI = []
  · rw [if_pos hemp]
    exact h
  · rw [if_neg hemp]
    exact lookup_peelF_mono _ _ (lookup_releaseIfSingleton_mono _ _ h)

theorem lookup_add_packet_mono {s : DecState} {b' : Nat} {v : Bytes}
    (indices : List Nat) (pkt0 : Bytes) (h : s.recovered.lookup b' = some v) :
    (add_packet s indices pkt0).recovered.lookup b' = some v :=
  lookup_add_packet_push_mono _ _ h

end LTDecoder

/-- Claim C6 (counterexample): the claim says a packet with an index `≥ K`
aborts with a ProtocolError and leaves the decoder unchanged, but
`add_packet` on a fresh 1-block decoder happily ingests index 5 and even
records it as recovered. -/
theorem add_packet_out_of_range_changes_state :
    (LTDecoder.add_packet (LTDecoder.init 1) [5] [0]).recovered = [(5, [0])] := by
  rfl

/-- Claim C6 (amended): `add_packet` performs no validation at all: there is
no index-range or payload-length check anywhere in `LTDecoder`, no error is
ever raised, and the state is modified — a degree-1 packet with any index
`j ≥ K` is ingested normally and `recovered[j]` is set to its payload (for
`K = 1` this even makes `is_complete()` return true without block 0 ever
being recovered). -/
theorem add_packet_no_validation (K j : Nat) (pkt : Bytes) (hj : K ≤ j) :
    (LTDecoder.add_packet (LTDecoder.init K) [j] pkt).recovered.lookup j
      = some pkt := by
  unfold LTDecoder.add_packet LTDecoder.add_packet_push
  apply LTDecoder.lookup_peelF_mono
  show (LTDecoder.releaseIfSingleton _ _ _).recovered.lookup j = some pkt
  unfold LTDecoder.releaseIfSingleton LTDecoder.addToRipple
  show (([] : List (Nat × Bytes)) ++ [(j, pkt)]).lookup j = some pkt
  rw [List.nil_append, lookup_cons_nat, if_pos rfl]

/-- Witness for `add_packet_no_validation` at `K = 1`, `j = 5`,
`pkt = [7]`. -/
theorem add_packet_no_validation_witness :
    (LTDecoder.add_packet (LTDecoder.init 1) [5] [7]).recovered.lookup 5
      = some [7] :=
  add_packet_no_validation 1 5 [7] (by norm_num)

/-- Claim C7: write-once recovery — once `recovered[b]` holds some bytes, no
subsequent sequence of `add_packet` calls (with all the peeling they
trigger) ever changes them: `_add_to_ripple` freezes a copy with `bytes(pkt)`
and only ever inserts keys that are absent, so later in-place XOR mutation of
residual buffers cannot reach `recovered[b]`. -/
theorem recovered_write_once (s : DecState) (pkts : List (List Nat × Bytes))
    (b : Nat) (v : Bytes) (h : s.recovered.lookup b = some v) :
    (LTDecoder.ingest_all s pkts).recovered.lookup b = some v := by
  induction pkts generalizing s with
  | nil => exact h
  | cons pr pkts ih =>
    exact ih _ (LTDecoder.lookup_add_packet_mono pr.1 pr.2 h)

/-- Witness for `recovered_write_once`: block 0 recovered as `[7]` stays `[7]`
after two more packets (one redundant, one conflicting). -/
theorem recovered_write_once_witness :
    (LTDecoder.ingest_all (LTDecoder.add_packet (LTDecoder.init 1) [0] [7])
        [([0], [7]), ([0], [9])]).recovered.lookup 0 = some [7] :=
  recovered_write_once _ _ 0 [7] (by rfl)

/-! ### The decoder invariant

`PeelInv payload bs K b todo s` is the decoder invariant relative to the file
contents: recovered entries hold true blocks, residual packets satisfy
`P' = XOR of true blocks over S'`, adjacency agrees exactly with the packets,
and every index of a residual packet is unrecovered unless it is still queued
in the ripple or is the block `b` currently being peeled with its packet id
still in the unprocessed part `todo` of the snapshot.  The quiescent
invariant `DecInv` is the special case `todo = []`. -/

structure PeelInv (payload : Bytes) (bs K b : Nat) (todo : List Nat)
    (s : DecState) : Prop where
  num_eq : s.num_blocks = K
  rec_nodup : (s.recovered.map Prod.fst).Nodup
  rec_correct : ∀ b' v, s.recovered.lookup b' = some v →
    b' < K ∧ v = block_at payload bs b'
  pkt_correct : ∀ pr ∈ s.packets,
    pr.2 = xor_blocks payload bs pr.1 ∧ pr.1.Nodup ∧ ∀ i ∈ pr.1, i < K
  adj_exact : ∀ b' pid, pid ∈ s.blockToPackets b' ↔
    ∃ pr, s.packets[pid]? = some pr ∧ b' ∈ pr.1
  adj_nodup : ∀ b', (s.blockToPackets b').Nodup
  ripple_rec : ∀ b' ∈ s.ripple, (s.recovered.lookup b').isSome = true
  pkt_unrec : ∀ pid pr, s.packets[pid]? = some pr → ∀ i ∈ pr.1,
    s.recovered.lookup i = none ∨ i ∈ s.ripple ∨ (i = b ∧ pid ∈ todo)

/-- The decoder invariant between `add_packet` calls. -/
def DecInv (payload : Bytes) (bs K : Nat) (s : DecState) : Prop :=
  PeelInv payload bs K 0 [] s

theorem PeelInv.of_nil_todo {payload : Bytes} {bs K b b' : Nat} {s : DecState}
    (h : PeelInv payload bs K b [] s) : PeelInv payload bs K b' [] s := by
  refine ⟨h.num_eq, h.rec_nodup, h.rec_correct, h.pkt_correct, h.adj_exact,
    h.adj_nodup, h.ripple_rec, ?_⟩
  intro pid pr hpr i hi
  rcases h.pkt_unrec pid pr hpr i hi with h1 | h2 | ⟨-, h3⟩
  · exact Or.inl h1
  · exact Or.inr (Or.inl h2)
  · cases h3

theorem decInv_init (payload : Bytes) (bs K : Nat) :
    DecInv payload bs K (LTDecoder.init K) := by
  refine ⟨rfl, by simp [LTDecoder.init], ?_, ?_, ?_, ?_, ?_, ?_⟩
  · intro b' v h
    cases h
  · intro pr hpr
    cases hpr
  · intro b' pid
    constructor
    · intro h
      cases h
    · rintro ⟨pr, hpr, -⟩
      rw [List.getElem?_eq_none (by simp [LTDecoder.init])] at hpr
      cases hpr
  · intro b'
    exact List.nodup_nil
  · intro b' h
    cases h
  · intro pid pr hpr
    rw [List.getElem?_eq_none (by simp [LTDecoder.init])] at hpr
    cases hpr

theorem addToRipple_peelInv {payload : Bytes} {bs K b : Nat} {todo : List Nat}
    {s : DecState} (hJ : PeelInv payload bs K b todo s) (n : Nat) (pktv : Bytes)
    (hnK : n < K) (hv : pktv = block_at payload bs n) :
    PeelInv payload bs K b todo (LTDecoder.addToRipple s n pktv) := by
  unfold LTDecoder.addToRipple
  cases hl : s.recovered.lookup n with
  | some w => exact hJ
  | none =>
    refine ⟨hJ.num_eq, keys_append_nodup hJ.rec_nodup hl, ?_, hJ.pkt_correct,
      hJ.adj_exact, hJ.adj_nodup, ?_, ?_⟩
    · intro b' v h
      rw [lookup_append] at h
      cases hl' : s.recovered.lookup b' with
      | some w =>
        rw [hl'] at h
        simp only [Option.or] at h
        injection h with h'
        subst h'
        exact hJ.rec_correct b' w hl'
      | none =>
        rw [hl'] at h
        simp only [Option.or] at h
        rw [lookup_cons_nat] at h
        by_cases hbn : b' = n
        · rw [if_pos hbn] at h
          injection h with h'
          subst h'
          exact ⟨hbn ▸ hnK, hbn ▸ hv⟩
        · rw [if_neg hbn] at h
          cases h
    · intro b' hb'
      rcases List.mem_append.mp hb' with hmem | hmem
      · have := hJ.ripple_rec b' hmem
        cases hl' : s.recovered.lookup b' with
        | some w => rw [lookup_append_left _ hl']; rfl
        | none => rw [hl'] at this; cases this
      · have hbn : b' = n := by simpa using hmem
        subst hbn
        rw [lookup_append, hl]
        simp only [Option.or]
        rw [lookup_cons_nat, if_pos rfl]
        rfl
    · intro pid pr hpr i hi
      rcases hJ.pkt_unrec pid pr hpr i hi with h1 | h2 | h3
      · by_cases hin : i = n
        · subst hin
          exact Or.inr (Or.inl (List.mem_append.mpr (Or.inr (by simp))))
        · refine Or.inl ?_
          rw [lookup_append, h1]
          simp only [Option.or]
          rw [lookup_cons_nat, if_neg hin]
          exact List.lookup_nil
      · exact Or.inr (Or.inl (List.mem_append.mpr (Or.inl h2)))
      · exact Or.inr (Or.inr h3)

theorem releaseIfSingleton_peelInv {payload : Bytes} {bs K b : Nat}
    {todo : List Nat} {s : DecState} (hJ : PeelInv payload bs K b todo s)
    (indices' : List Nat) (pktv : Bytes)
    (hcond : ∀ n, indices' = [n] → n < K ∧ pktv = block_at payload bs n) :
    PeelInv payload bs K b todo (LTDecoder.releaseIfSingleton s indices' pktv) := by
  unfold LTDecoder.releaseIfSingleton
  cases indices' with
  | nil => exact hJ
  | cons n tail =>
    cases tail with
    | nil =>
      obtain ⟨h1, h2⟩ := hcond n rfl
      exact addToRipple_peelInv hJ n pktv h1 h2
    | cons m tail2 => exact hJ

theorem setPacket_peelInv {payload : Bytes} {bs K b t : Nat} {todo : List Nat}
    {s : DecState} {indices : List Nat} {pkt : Bytes}
    (hJ : PeelInv payload bs K b (t :: todo) s)
    (hget : s.packets[t]? = some (indices, pkt)) (hb : b ∈ indices)
    (htlt : t < s.packets.length) :
    PeelInv payload bs K b todo
      { s with
        packets := s.packets.set t (indices.erase b, xorB pkt (block_at payload bs b)),
        blockToPackets := fun j =>
          if j = b then (s.blockToPackets j).erase t else s.blockToPackets j } := by
  have hpk := hJ.pkt_correct (indices, pkt) (List.getElem?_mem hget)
  have hpkval : pkt = xor_blocks payload bs indices := hpk.1
  have hpknd : indices.Nodup := hpk.2.1
  have hpkbd : ∀ i ∈ indices, i < K := hpk.2.2
  refine ⟨hJ.num_eq, hJ.rec_nodup, hJ.rec_correct, ?_, ?_, ?_, hJ.ripple_rec, ?_⟩
  · -- pkt_correct
    intro pr hpr
    have hpr' : pr ∈ s.packets.set t
        (indices.erase b, xorB pkt (block_at payload bs b)) := hpr
    rcases List.mem_or_eq_of_mem_set hpr' with hmem | rfl
    · exact hJ.pkt_correct pr hmem
    · refine ⟨?_, hpknd.erase b, fun i hi => hpkbd i (List.mem_of_mem_erase hi)⟩
      show xorB pkt (block_at payload bs b) = xor_blocks payload bs (indices.erase b)
      rw [hpkval]
      exact xorB_xor_blocks_erase payload bs indices b hb
  · -- adj_exact
    intro b' pid
    show pid ∈ (if b' = b then (s.blockToPackets b').erase t else s.blockToPackets b')
        ↔ ∃ pr, (s.packets.set t
            (indices.erase b, xorB pkt (block_at payload bs b)))[pid]? = some pr
            ∧ b' ∈ pr.1
    by_cases hb' : b' = b
    · subst hb'
      rw [if_pos rfl, (hJ.adj_nodup b').mem_erase_iff]
      constructor
      · rintro ⟨hne, hmem⟩
        obtain ⟨pr, hpr, hbpr⟩ := (hJ.adj_exact b' pid).mp hmem
        refine ⟨pr, ?_, hbpr⟩
        rw [List.getElem?_set_ne (fun hEq => hne hEq.symm)]
        exact hpr
      · rintro ⟨pr, hpr, hbpr⟩
        by_cases hpt : pid = t
        · subst hpt
          rw [List.getElem?_set_self htlt] at hpr
          injection hpr with h'
          subst h'
          exact absurd hbpr (fun hmem => ((hpknd.mem_erase_iff).mp hmem).1 rfl)
        · rw [List.getElem?_set_ne (fun hEq => hpt hEq.symm)] at hpr
          exact ⟨hpt, (hJ.adj_exact b' pid).mpr ⟨pr, hpr, hbpr⟩⟩
    · rw [if_neg hb']
      rw [hJ.adj_exact b' pid]
      by_cases hpt : pid = t
      · subst hpt
        constructor
        · rintro ⟨pr, hpr, hbpr⟩
          rw [hget] at hpr
          injection hpr with h'
          subst h'
          refine ⟨(indices.erase b, xorB pkt (block_at payload bs b)), ?_, ?_⟩
          · rw [List.getElem?_set_self htlt]
          · exact (List.mem_erase_of_ne hb').mpr hbpr
        · rintro ⟨pr, hpr, hbpr⟩
          rw [List.getElem?_set_self htlt] at hpr
          injection hpr with h'
          subst h'
          exact ⟨(indices, pkt), hget, List.mem_of_mem_erase hbpr⟩
      · constructor
        · rintro ⟨pr, hpr, hbpr⟩
          refine ⟨pr, ?_, hbpr⟩
          rw [List.getElem?_set_ne (fun hEq => hpt hEq.symm)]
          exact hpr
        · rintro ⟨pr, hpr, hbpr⟩
          rw [List.getElem?_set_ne (fun hEq => hpt hEq.symm)] at hpr
          exact ⟨pr, hpr, hbpr⟩
  · -- adj_nodup
    intro b'
    show (if b' = b then (s.blockToPackets b').erase t else s.blockToPackets b').Nodup
    by_cases hb' : b' = b
    · rw [if_pos hb']
      exact (hJ.adj_nodup b').erase t
    · rw [if_neg hb']
      exact hJ.adj_nodup b'
  · -- pkt_unrec
    intro pid pr hpr i hi
    have hpr' : (s.packets.set t
        (indices.erase b, xorB pkt (block_at payload bs b)))[pid]? = some pr := hpr
    by_cases hpt : pid = t
    · subst hpt
      rw [List.getElem?_set_self htlt] at hpr'
      injection hpr' with h'
      subst h'
      have hib : i ≠ b := fun hEq => ((hpknd.mem_erase_iff).mp (hEq ▸ hi)).1 rfl
      rcases hJ.pkt_unrec _ (indices, pkt) hget i (List.mem_of_mem_erase hi)
        with h1 | h2 | ⟨h3, -⟩
      · exact Or.inl h1
      · exact Or.inr (Or.inl h2)
      · exact absurd h3 hib
    · rw [List.getElem?_set_ne (fun hEq => hpt hEq.symm)] at hpr'
      rcases hJ.pkt_unrec pid pr hpr' i hi with h1 | h2 | ⟨h3, h4⟩
      · exact Or.inl h1
      · exact Or.inr (Or.inl h2)
      · refine Or.inr (Or.inr ⟨h3, ?_⟩)
        rcases List.mem_cons.mp h4 with hEq | hmem
        · exact absurd hEq hpt
        · exact hmem

theorem processPacketAux_peelInv {payload : Bytes} {bs K b t : Nat}
    {todo : List Nat} {s : DecState} {indices : List Nat} {pkt : Bytes}
    (hJ : PeelInv payload bs K b (t :: todo) s)
    (hget : s.packets[t]? = some (indices, pkt)) :
    PeelInv payload bs K b todo
      (LTDecoder.processPacketAux b (block_at payload bs b) s t indices pkt) := by
  have hpk := hJ.pkt_correct (indices, pkt) (List.getElem?_mem hget)
  have hpkval : pkt = xor_blocks payload bs indices := hpk.1
  have hpkbd : ∀ i ∈ indices, i < K := hpk.2.2
  unfold LTDecoder.processPacketAux
  by_cases hb : b ∈ indices
  · rw [if_pos hb]
    have htlt : t < s.packets.length := by
      by_contra hge
      rw [List.getElem?_eq_none (by omega)] at hget
      cases hget
    refine releaseIfSingleton_peelInv (setPacket_peelInv hJ hget hb htlt) _ _ ?_
    intro n hEq
    constructor
    · exact hpkbd n (List.mem_of_mem_erase (by rw [hEq]; simp))
    · show xorB pkt (block_at payload bs b) = _
      rw [hpkval, xorB_xor_blocks_erase payload bs indices b hb, hEq,
        xor_blocks_singleton]
  · rw [if_neg hb]
    refine ⟨hJ.num_eq, hJ.rec_nodup, hJ.rec_correct, hJ.pkt_correct,
      hJ.adj_exact, hJ.adj_nodup, hJ.ripple_rec, ?_⟩
    intro pid pr hpr i hi
    rcases hJ.pkt_unrec pid pr hpr i hi with h1 | h2 | ⟨h3, h4⟩
    · exact Or.inl h1
    · exact Or.inr (Or.inl h2)
    · refine Or.inr (Or.inr ⟨h3, ?_⟩)
      rcases List.mem_cons.mp h4 with hEq | hmem
      · subst hEq
        rw [hget] at hpr
        injection hpr with h'
        subst h'
        exact absurd (h3 ▸ hi) hb
      · exact hmem

theorem processPacket_peelInv {payload : Bytes} {bs K b t : Nat}
    {todo : List Nat} {s : DecState}
    (hJ : PeelInv payload bs K b (t :: todo) s) :
    PeelInv payload bs K b todo
      (LTDecoder.processPacket b (block_at payload bs b) s t) := by
  unfold LTDecoder.processPacket
  cases hget : s.packets[t]? with
  | none =>
    refine ⟨hJ.num_eq, hJ.rec_nodup, hJ.rec_correct, hJ.pkt_correct,
      hJ.adj_exact, hJ.adj_nodup, hJ.ripple_rec, ?_⟩
    intro pid pr hpr i hi
    rcases hJ.pkt_unrec pid pr hpr i hi with h1 | h2 | ⟨h3, h4⟩
    · exact Or.inl h1
    · exact Or.inr (Or.inl h2)
    · refine Or.inr (Or.inr ⟨h3, ?_⟩)
      rcases List.mem_cons.mp h4 with hEq | hmem
      · subst hEq
        rw [hget] at hpr
        cases hpr
      · exact hmem
  | some pr =>
    obtain ⟨indices, pkt⟩ := pr
    show PeelInv payload bs K b todo
      (LTDecoder.processPacketAux b (block_at payload bs b) s t indices pkt)
    exact processPacketAux_peelInv hJ hget

theorem foldl_processPacket_peelInv {payload : Bytes} {bs K b : Nat} :
    ∀ (todo : List Nat) (s : DecState), PeelInv payload bs K b todo s →
      PeelInv payload bs K b []
        (todo.foldl (LTDecoder.processPacket b (block_at payload bs b)) s) := by
  intro todo
  induction todo with
  | nil => intro s hJ; exact hJ
  | cons t todo ih =>
    intro s hJ
    rw [List.foldl_cons]
    exact ih _ (processPacket_peelInv hJ)

theorem processBlock_decInv {payload : Bytes} {bs K : Nat} {s : DecState}
    {b : Nat} {rest : List Nat} (hInv : DecInv payload bs K s)
    (hrip : s.ripple = b :: rest) :
    DecInv payload bs K (LTDecoder.processBlock { s with ripple := rest } b) := by
  have hbrec : s.recovered.lookup b = some (block_at payload bs b) := by
    have h1 := hInv.ripple_rec b (by rw [hrip]; simp)
    cases hl : s.recovered.lookup b with
    | none => rw [hl] at h1; cases h1
    | some v =>
      have h2 := (hInv.rec_correct b v hl).2
      rw [← h2]
  have hJ0 : PeelInv payload bs K b (s.blockToPackets b) { s with ripple := rest } := by
    refine ⟨hInv.num_eq, hInv.rec_nodup, hInv.rec_correct, hInv.pkt_correct,
      hInv.adj_exact, hInv.adj_nodup, ?_, ?_⟩
    · intro b' hb'
      exact hInv.ripple_rec b' (by rw [hrip]; exact List.mem_cons_of_mem b hb')
    · intro pid pr hpr i hi
      rcases hInv.pkt_unrec pid pr hpr i hi with h1 | h2 | ⟨-, h3⟩
      · exact Or.inl h1
      · rw [hrip] at h2
        rcases List.mem_cons.mp h2 with hEq | hmem
        · exact Or.inr (Or.inr ⟨hEq, (hInv.adj_exact b pid).mpr ⟨pr, hpr, hEq ▸ hi⟩⟩)
        · exact Or.inr (Or.inl hmem)
      · cases h3
  unfold LTDecoder.processBlock
  have hrb : (({ s with ripple := rest } : DecState).recovered.lookup b).getD []
      = block_at payload bs b := by
    show (s.recovered.lookup b).getD [] = _
    rw [hbrec]
    rfl
  rw [hrb]
  exact (foldl_processPacket_peelInv _ _ hJ0).of_nil_todo

theorem peelF_decInv {payload : Bytes} {bs K : Nat} :
    ∀ (fuel : Nat) (s : DecState), DecInv payload bs K s →
      DecInv payload bs K (LTDecoder.peelF fuel s) := by
  intro fuel
  induction fuel with
  | zero => intro s h; exact h
  | succ fuel ih =>
    intro s h
    rw [LTDecoder.peelF]
    cases hrip : s.ripple with
    | nil => exact h
    | cons b rest => exact ih _ (processBlock_decInv h hrip)

/-! ### The first phase of `add_packet`: eliminating recovered blocks -/

theorem step1_foldl_spec {payload : Bytes} {bs : Nat} {s : DecState}
    (hrec : ∀ b' v, s.recovered.lookup b' = some v → v = block_at payload bs b') :
    ∀ (l done : List Nat) (cur : Bytes), (done ++ l).Nodup →
      cur = xor_blocks payload bs (done ++ l) →
      (l.foldl
          (fun (acc : List Nat × Bytes) i =>
            match s.recovered.lookup i with
            | some rb => (acc.1, xorB acc.2 rb)
            | none => (acc.1 ++ [i], acc.2))
          (done, cur)).1
        = done ++ l.filter (fun i => (s.recovered.lookup i).isNone)
      ∧ (l.foldl
          (fun (acc : List Nat × Bytes) i =>
            match s.recovered.lookup i with
            | some rb => (acc.1, xorB acc.2 rb)
            | none => (acc.1 ++ [i], acc.2))
          (done, cur)).2
        = xor_blocks payload bs
            (done ++ l.filter (fun i => (s.recovered.lookup i).isNone)) := by
  intro l
  induction l with
  | nil =>
    intro done cur hnd hcur
    constructor
    · simp
    · simpa using hcur
  | cons i l ih =>
    intro done cur hnd hcur
    have hino : i ∉ done := by
      intro hmem
      exact (List.disjoint_of_nodup_append hnd) hmem (by simp)
    rw [List.foldl_cons]
    cases hl : s.recovered.lookup i with
    | some rb =>
      have hfil : (i :: l).filter (fun j => (s.recovered.lookup j).isNone)
          = l.filter (fun j => (s.recovered.lookup j).isNone) := by
        rw [List.filter_cons, if_neg (by rw [hl]; simp)]
      have hnd' : (done ++ l).Nodup :=
        ((List.sublist_cons_self i l).append_left done).nodup hnd
      have hcur' : xorB cur rb = xor_blocks payload bs (done ++ l) := by
        have hmem : i ∈ done ++ i :: l := by simp
        have herase : (done ++ i :: l).erase i = done ++ l := by
          rw [List.erase_append_right _ hino, List.erase_cons_head]
        rw [hcur, hrec i rb hl, xorB_xor_blocks_erase payload bs _ i hmem, herase]
      rw [hfil]
      exact ih done (xorB cur rb) hnd' hcur'
    | none =>
      have hfil : (i :: l).filter (fun j => (s.recovered.lookup j).isNone)
          = i :: l.filter (fun j => (s.recovered.lookup j).isNone) := by
        rw [List.filter_cons, if_pos (by rw [hl]; simp)]
      have hassoc : (done ++ [i]) ++ l = done ++ i :: l := by simp
      have h2 := ih (done ++ [i]) cur (by rw [hassoc]; exact hnd)
        (by rw [hassoc]; exact hcur)
      rw [hfil]
      constructor
      · exact h2.1.trans (by simp)
      · exact h2.2.trans (congrArg (xor_blocks payload bs) (by simp))

/-! ### The adjacency update of `add_packet` -/

theorem insertId_mem {l : List Nat} {p q : Nat} :
    q ∈ LTDecoder.insertId l p ↔ q ∈ l ∨ q = p := by
  unfold LTDecoder.insertId
  by_cases h : p ∈ l
  · rw [if_pos h]
    constructor
    · exact Or.inl
    · rintro (hq | rfl)
      · exact hq
      · exact h
  · rw [if_neg h]
    simp

theorem insertId_idem (l : List Nat) (p : Nat) :
    LTDecoder.insertId (LTDecoder.insertId l p) p = LTDecoder.insertId l p := by
  unfold LTDecoder.insertId
  by_cases h : p ∈ l
  · rw [if_pos h, if_pos h]
  · rw [if_neg h, if_pos (by simp)]

theorem insertId_nodup {l : List Nat} (p : Nat) (h : l.Nodup) :
    (LTDecoder.insertId l p).Nodup := by
  unfold LTDecoder.insertId
  by_cases hp : p ∈ l
  · rw [if_pos hp]
    exact h
  · rw [if_neg hp]
    refine List.Nodup.append h (by simp) ?_
    intro a ha hb
    simp only [List.mem_singleton] at hb
    subst hb
    exact hp ha

theorem insertId_not_mem {l : List Nat} {p : Nat} (h : p ∉ l) :
    LTDecoder.insertId l p = l ++ [p] := by
  unfold LTDecoder.insertId
  rw [if_neg h]

theorem btp_foldl_char (ind : List Nat) (pid : Nat) :
    ∀ (f0 : Nat → List Nat) (j : Nat),
      (ind.foldl
          (fun f i => fun j' => if j' = i then LTDecoder.insertId (f j') pid else f j')
          f0) j
        = if j ∈ ind then LTDecoder.insertId (f0 j) pid else f0 j := by
  induction ind with
  | nil =>
    intro f0 j
    simp
  | cons i ind ih =>
    intro f0 j
    rw [List.foldl_cons, ih]
    by_cases hji : j = i
    · subst hji
      by_cases hjind : j ∈ ind
      · simp [hjind, insertId_idem]
      · simp [hjind]
    · by_cases hjind : j ∈ ind
      · simp [hji, hjind]
      · simp [hji, hjind]

/-! ### `add_packet` preserves the decoder invariant -/

theorem add_packet_push_decInv {payload : Bytes} {bs K : Nat} {s : DecState}
    (hInv : DecInv payload bs K s) {newI : List Nat} {pkt : Bytes}
    (hnd : newI.Nodup) (hbd : ∀ i ∈ newI, i < K)
    (hval : pkt = xor_blocks payload bs newI)
    (hunrec : ∀ i ∈ newI, s.recovered.lookup i = none) :
    DecInv payload bs K (LTDecoder.add_packet_push s newI pkt) := by
  unfold LTDecoder.add_packet_push
  by_cases hemp : newI = []
  · rw [if_pos hemp]
    exact hInv
  · rw [if_neg hemp]
    have hfresh : ∀ b', s.packets.length ∉ s.blockToPackets b' := by
      intro b' hmem
      rcases (hInv.adj_exact b' s.packets.length).mp hmem with ⟨pr, hpr, -⟩
      rw [List.getElem?_eq_none (le_refl _)] at hpr
      cases hpr
    have hJ1 : DecInv payload bs K
        { s with
          packets := s.packets ++ [(newI, pkt)],
          blockToPackets :=
            newI.foldl
              (fun f i => fun j =>
                if j = i then LTDecoder.insertId (f j) s.packets.length else f j)
              s.blockToPackets } := by
      refine ⟨hInv.num_eq, hInv.rec_nodup, hInv.rec_correct, ?_, ?_, ?_,
        hInv.ripple_rec, ?_⟩
      · -- pkt_correct
        intro pr hpr
        have hpr' : pr ∈ s.packets ++ [(newI, pkt)] := hpr
        rcases List.mem_append.mp hpr' with hmem | hmem
        · exact hInv.pkt_correct pr hmem
        · have hpr2 : pr = (newI, pkt) := by simpa using hmem
          subst hpr2
          exact ⟨hval, hnd, hbd⟩
      · -- adj_exact
        intro b' pid'
        show pid' ∈ (newI.foldl
            (fun f i => fun j =>
              if j = i then LTDecoder.insertId (f j) s.packets.length else f j)
            s.blockToPackets) b'
          ↔ ∃ pr, (s.packets ++ [(newI, pkt)])[pid']? = some pr ∧ b' ∈ pr.1
        rw [btp_foldl_char]
        rcases Nat.lt_trichotomy pid' s.packets.length with hlt | heq | hgt
        · rw [List.getElem?_append_left hlt]
          by_cases hb' : b' ∈ newI
          · rw [if_pos hb', insertId_mem]
            constructor
            · rintro (hm | hm)
              · exact (hInv.adj_exact b' pid').mp hm
              · omega
            · intro h
              exact Or.inl ((hInv.adj_exact b' pid').mpr h)
          · rw [if_neg hb']
            exact hInv.adj_exact b' pid'
        · subst heq
          rw [List.getElem?_append_right (le_refl _)]
          simp only [Nat.sub_self, List.getElem?_cons_zero]
          by_cases hb' : b' ∈ newI
          · rw [if_pos hb']
            constructor
            · intro hm
              exact ⟨(newI, pkt), rfl, hb'⟩
            · intro hm
              rw [insertId_mem]
              exact Or.inr rfl
          · rw [if_neg hb']
            constructor
            · intro hm
              exact absurd hm (hfresh b')
            · rintro ⟨pr, hpr, hbpr⟩
              injection hpr with h
              subst h
              exact absurd hbpr hb'
        · rw [List.getElem?_eq_none (by simp; omega)]
          constructor
          · intro hm
            exfalso
            have hmem : pid' ∈ s.blockToPackets b' := by
              by_cases hb' : b' ∈ newI
              · rw [if_pos hb', insertId_mem] at hm
                rcases hm with hm | hm
                · exact hm
                · omega
              · rw [if_neg hb'] at hm
                exact hm
            rcases (hInv.adj_exact b' pid').mp hmem with ⟨pr, hpr, -⟩
            rw [List.getElem?_eq_none (by omega)] at hpr
            cases hpr
          · rintro ⟨pr, hpr, -⟩
            cases hpr
      · -- adj_nodup
        intro b'
        show ((newI.foldl
            (fun f i => fun j =>
              if j = i then LTDecoder.insertId (f j) s.packets.length else f j)
            s.blockToPackets) b').Nodup
        rw [btp_foldl_char]
        by_cases hb' : b' ∈ newI
        · rw [if_pos hb']
          exact insertId_nodup _ (hInv.adj_nodup b')
        · rw [if_neg hb']
          exact hInv.adj_nodup b'
      · -- pkt_unrec
        intro pid' pr hpr i hi
        have hpr' : (s.packets ++ [(newI, pkt)])[pid']? = some pr := hpr
        rcases Nat.lt_trichotomy pid' s.packets.length with hlt | heq | hgt
        · rw [List.getElem?_append_left hlt] at hpr'
          rcases hInv.pkt_unrec pid' pr hpr' i hi with h1 | h2 | ⟨-, h3⟩
          · exact Or.inl h1
          · exact Or.inr (Or.inl h2)
          · cases h3
        · rw [heq, List.getElem?_append_right (le_refl _)] at hpr'
          simp only [Nat.sub_self, List.getElem?_cons_zero] at hpr'
          injection hpr' with h
          subst h
          exact Or.inl (hunrec i hi)
        · rw [List.getElem?_eq_none (by simp; omega)] at hpr'
          cases hpr'
    unfold LTDecoder.peel
    refine peelF_decInv _ _ ?_
    refine releaseIfSingleton_peelInv hJ1 newI pkt ?_
    intro n hn
    subst hn
    refine ⟨hbd n (by simp), ?_⟩
    rw [hval, xor_blocks_singleton]

theorem add_packet_decInv {payload : Bytes} {bs K : Nat} {s : DecState}
    (hInv : DecInv payload bs K s) (ind : List Nat) (pkt0 : Bytes)
    (hnd : ind.Nodup) (hbd : ∀ i ∈ ind, i < K)
    (hval : pkt0 = xor_blocks payload bs ind) :
    DecInv payload bs K (LTDecoder.add_packet s ind pkt0) := by
  have hrec : ∀ b' v, s.recovered.lookup b' = some v →
      v = block_at payload bs b' := fun b' v h => (hInv.rec_correct b' v h).2
  have hstep := step1_foldl_spec hrec ind [] pkt0 (by simpa using hnd)
    (by simpa using hval)
  show DecInv payload bs K (LTDecoder.add_packet_push s
    (ind.foldl
      (fun (acc : List Nat × Bytes) i =>
        match s.recovered.lookup i with
        | some rb => (acc.1, xorB acc.2 rb)
        | none => (acc.1 ++ [i], acc.2))
      ([], pkt0)).1
    (ind.foldl
      (fun (acc : List Nat × Bytes) i =>
        match s.recovered.lookup i with
        | some rb => (acc.1, xorB acc.2 rb)
        | none => (acc.1 ++ [i], acc.2))
      ([], pkt0)).2)
  rw [hstep.1, hstep.2]
  simp only [List.nil_append]
  exact add_packet_push_decInv hInv (hnd.filter _)
    (fun i hi => hbd i (List.mem_of_mem_filter hi)) rfl
    (fun i hi => Option.isNone_iff_eq_none.mp (List.mem_filter.mp hi).2)

theorem add_packet_push_ripple_nil (s : DecState) (newI : List Nat)
    (pkt : Bytes) (h : s.ripple = []) :
    (LTDecoder.add_packet_push s newI pkt).ripple = [] := by
  unfold LTDecoder.add_packet_push
  by_cases hemp : newI = []
  · rw [if_pos hemp]
    exact h
  · rw [if_neg hemp]
    exact LTDecoder.peel_ripple_eq_nil _

theorem add_packet_ripple_nil (s : DecState) (ind : List Nat) (pkt0 : Bytes)
    (h : s.ripple = []) :
    (LTDecoder.add_packet s ind pkt0).ripple = [] :=
  add_packet_push_ripple_nil _ _ _ h

/-! ### The peel invariant (claim C2) -/

/-- The hypothesis on every ingested packet: `random.sample` yields distinct
indices below `num_blocks`, and `lt_encoder` makes the payload the XOR of the
true blocks indexed (claim C5). -/
def ValidPacket (payload : Bytes) (bs K : Nat) (pr : List Nat × Bytes) : Prop :=
  pr.1.Nodup ∧ (∀ i ∈ pr.1, i < K) ∧ pr.2 = xor_blocks payload bs pr.1

instance (payload : Bytes) (bs K : Nat) (pr : List Nat × Bytes) :
    Decidable (ValidPacket payload bs K pr) := by
  unfold ValidPacket
  infer_instance

theorem ingest_all_decInv {payload : Bytes} {bs K : Nat} :
    ∀ (pkts : List (List Nat × Bytes)) (s : DecState),
      DecInv payload bs K s → s.ripple = [] →
      (∀ pr ∈ pkts, ValidPacket payload bs K pr) →
      DecInv payload bs K (LTDecoder.ingest_all s pkts) ∧
        (LTDecoder.ingest_all s pkts).ripple = [] := by
  intro pkts
  induction pkts with
  | nil =>
    intro s h hr _
    exact ⟨h, hr⟩
  | cons pr pkts ih =>
    intro s h hr hv
    have hv1 := hv pr (by simp)
    exact ih (LTDecoder.add_packet s pr.1 pr.2)
      (add_packet_decInv h pr.1 pr.2 hv1.1 hv1.2.1 hv1.2.2)
      (add_packet_ripple_nil s pr.1 pr.2 hr)
      (fun q hq => hv q (by simp [hq]))

/-- Claim C2: peel invariant — after any sequence of `add_packet` calls (each
ingested packet being the XOR of the true blocks it indexes, with distinct
indices below `K`) returns, every residual packet `(S', P')` in
`decoder.packets` satisfies `P' = XOR_{i ∈ S'} block[i]`, and no index of any
`S'` is present in `decoder.recovered`. -/
theorem decoder_peel_invariant (payload : Bytes) (bs K : Nat)
    (pkts : List (List Nat × Bytes))
    (hv : ∀ pr ∈ pkts, ValidPacket payload bs K pr)
    (pid : Nat) (pr : List Nat × Bytes)
    (hpr : (LTDecoder.ingest_all (LTDecoder.init K) pkts).packets[pid]?
      = some pr)
    (i : Nat) (hi : i ∈ pr.1) :
    pr.2 = xor_blocks payload bs pr.1 ∧
      (LTDecoder.ingest_all (LTDecoder.init K) pkts).recovered.lookup i
        = none := by
  obtain ⟨hinv, hrip⟩ :=
    ingest_all_decInv pkts _ (decInv_init payload bs K) rfl hv
  refine ⟨(hinv.pkt_correct pr (List.getElem?_mem hpr)).1, ?_⟩
  rcases hinv.pkt_unrec pid pr hpr i hi with h1 | h2 | ⟨-, h3⟩
  · exact h1
  · rw [hrip] at h2
    cases h2
  · cases h3

/-- Witness for `decoder_peel_invariant`: payload `[5, 9]`, `block_size = 1`,
`K = 2`, one degree-2 packet `([0, 1], [12])` which stays residual. -/
theorem decoder_peel_invariant_witness :
    ([12] : Bytes) = xor_blocks [5, 9] 1 [0, 1] ∧
      (LTDecoder.ingest_all (LTDecoder.init 2)
          [([0, 1], [12])]).recovered.lookup 0 = none :=
  decoder_peel_invariant [5, 9] 1 2 [([0, 1], [12])] (by decide) 0
    ([0, 1], [12]) rfl 0 (by decide)

/-! ### Round trip (claim C1) -/

/-- Step 4 of `readcodes_zbar.py`:
`b''.join(decoder.recovered[i] for i in range(num_blocks))` truncated with
`[:file_size]`. -/
def reconstruct (s : DecState) (num_blocks file_size : Nat) : Bytes :=
  ((List.range num_blocks).flatMap
    (fun i => (s.recovered.lookup i).getD [])).take file_size

/-- A packet as produced by `lt_encoder`: a nonempty list of distinct sampled
indices below `num_blocks` (guaranteed by `random.sample`) together with the
payload built by the XOR loop. -/
def EncoderPacket (payload : Bytes) (bs : Nat) (pr : List Nat × Bytes) : Prop :=
  pr.1 ≠ [] ∧ pr.1.Nodup ∧ (∀ i ∈ pr.1, i < ceilDiv payload.length bs) ∧
    pr.2 = lt_encoder_packet payload bs pr.1

instance (payload : Bytes) (bs : Nat) (pr : List Nat × Bytes) :
    Decidable (EncoderPacket payload bs pr) := by
  unfold EncoderPacket
  infer_instance

theorem lt_encoder_packet_eq (fd : Bytes) (bs : Nat) (indices : List Nat)
    (hne : indices ≠ []) (hlt : ∀ i ∈ indices, i < ceilDiv fd.length bs) :
    lt_encoder_packet fd bs indices = xor_blocks fd bs indices := by
  cases indices with
  | nil => exact absurd rfl hne
  | cons i0 rest =>
    show rest.foldl _ (ljust ((lt_encoder_blocks fd bs).getD i0 []) bs) = _
    rw [lt_encoder_blocks_getD fd bs i0 (hlt i0 (by simp)),
      foldl_xorB_blocks fd bs rest (block_at fd bs i0) (length_block_at fd bs i0)
        (fun j hj => hlt j (by simp [hj]))]
    rfl

theorem le_ceilDiv_mul (len bs : Nat) (hbs : 0 < bs) :
    len ≤ ceilDiv len bs * bs := by
  unfold ceilDiv
  have h := Nat.div_add_mod (len + bs - 1) bs
  have h2 := Nat.mod_lt (len + bs - 1) hbs
  have h3 : (len + bs - 1) / bs * bs = bs * ((len + bs - 1) / bs) :=
    Nat.mul_comm _ _
  omega

theorem block_at_succ (fd : Bytes) (bs i : Nat) :
    block_at fd bs (i + 1) = block_at (fd.drop bs) bs i := by
  unfold block_at
  rw [List.drop_drop]
  have h : bs + i * bs = (i + 1) * bs := by ring
  rw [h]

theorem flatMap_map_nat (g : Nat → Nat) (f : Nat → Bytes) :
    ∀ l : List Nat, (l.map g).flatMap f = l.flatMap (fun x => f (g x)) := by
  intro l
  induction l with
  | nil => rfl
  | cons a l ih => rw [List.map_cons, List.flatMap_cons, List.flatMap_cons, ih]

theorem flatMap_congr_on {f g : Nat → Bytes} :
    ∀ l : List Nat, (∀ a ∈ l, f a = g a) → l.flatMap f = l.flatMap g := by
  intro l
  induction l with
  | nil => intro _; rfl
  | cons a l ih =>
    intro h
    rw [List.flatMap_cons, List.flatMap_cons, h a (by simp),
      ih (fun b hb => h b (by simp [hb]))]

/-- Concatenating the zero-padded blocks of a file in order reproduces the
file plus its padding. -/
theorem flatMap_block_at (bs : Nat) (hbs : 0 < bs) :
    ∀ (K : Nat) (fd : Bytes), fd.length ≤ K * bs →
      (List.range K).flatMap (fun i => block_at fd bs i)
        = fd ++ List.replicate (K * bs - fd.length) 0 := by
  intro K
  induction K with
  | zero =>
    intro fd h
    have hfd : fd = [] := List.eq_nil_of_length_eq_zero (by omega)
    subst hfd
    simp
  | succ K ih =>
    intro fd h
    have hmul : (K + 1) * bs = K * bs + bs := by ring
    rw [List.range_succ_eq_map, List.flatMap_cons, flatMap_map_nat]
    have hcg : (List.range K).flatMap (fun x => block_at fd bs (Nat.succ x))
        = (List.range K).flatMap (fun i => block_at (fd.drop bs) bs i) :=
      flatMap_congr_on _ (fun a _ => block_at_succ fd bs a)
    rw [hcg, ih (fd.drop bs) (by rw [List.length_drop]; omega)]
    have hlen_drop : (fd.drop bs).length = fd.length - bs := List.length_drop _ _
    have hb0 : block_at fd bs 0
        = fd.take bs ++ List.replicate (bs - (fd.take bs).length) 0 := by
      unfold block_at ljust
      rw [Nat.zero_mul, List.drop_zero]
    rw [hb0, hlen_drop]
    rcases le_or_lt bs fd.length with hle | hlt
    · have htake : (fd.take bs).length = bs := by
        rw [List.length_take]
        omega
      rw [htake, Nat.sub_self]
      simp only [List.replicate_zero, List.append_nil]
      rw [← List.append_assoc, List.take_append_drop]
      have hc : K * bs - (fd.length - bs) = (K + 1) * bs - fd.length := by omega
      rw [hc]
    · have hdrop : fd.drop bs = [] := List.drop_eq_nil_of_le (by omega)
      have htake : fd.take bs = fd := List.take_of_length_le (by omega)
      rw [hdrop, htake, List.nil_append, List.append_assoc, ← List.replicate_add]
      have hc : bs - fd.length + (K * bs - (fd.length - bs))
          = (K + 1) * bs - fd.length := by omega
      rw [hc]

/-- When the decoder is complete, every block below `K` is recovered with its
true contents. -/
theorem decInv_complete_lookup {payload : Bytes} {bs K : Nat} {s : DecState}
    (hinv : DecInv payload bs K s) (hlen : s.recovered.length = K) :
    ∀ b, b < K → s.recovered.lookup b = some (block_at payload bs b) := by
  have hkeys : (s.recovered.map Prod.fst).Nodup := hinv.rec_nodup
  have hsub : (s.recovered.map Prod.fst).toFinset ⊆ Finset.range K := by
    intro a ha
    rw [List.mem_toFinset] at ha
    rw [Finset.mem_range]
    obtain ⟨v, hv⟩ :=
      Option.isSome_iff_exists.mp (lookup_isSome_of_mem_keys ha)
    exact (hinv.rec_correct a v hv).1
  have hcard : (s.recovered.map Prod.fst).toFinset.card = K := by
    rw [List.toFinset_card_of_nodup hkeys, List.length_map, hlen]
  have heq : (s.recovered.map Prod.fst).toFinset = Finset.range K :=
    Finset.eq_of_subset_of_card_le hsub (by rw [hcard, Finset.card_range])
  intro b hb
  have hbmem : b ∈ s.recovered.map Prod.fst := by
    rw [← List.mem_toFinset, heq, Finset.mem_range]
    exact hb
  obtain ⟨v, hv⟩ :=
    Option.isSome_iff_exists.mp (lookup_isSome_of_mem_keys hbmem)
  rw [hv, (hinv.rec_correct b v hv).2]

/-- Claim C1: end-to-end round trip — for a payload accepted by the planner
(`block_size = choose_block_size(file_size, max_payload_size)`), feeding any
packets produced by `lt_encoder(file_data, block_size)` into an
`LTDecoder(K)` via `add_packet` until `is_complete()` holds, then
concatenating `recovered[0] .. recovered[K-1]` and truncating to `file_size`,
yields the original payload byte-for-byte. -/
theorem lt_round_trip (payload : Bytes) (mps bs : Nat)
    (hplan : choose_block_size payload.length mps = some bs)
    (pkts : List (List Nat × Bytes))
    (hv : ∀ pr ∈ pkts, EncoderPacket payload bs pr)
    (hcomp : LTDecoder.is_complete
      (LTDecoder.ingest_all (LTDecoder.init (ceilDiv payload.length bs)) pkts)
        = true) :
    reconstruct
        (LTDecoder.ingest_all (LTDecoder.init (ceilDiv payload.length bs)) pkts)
        (ceilDiv payload.length bs) payload.length
      = payload := by
  have hbs : 1 ≤ bs := (cbsLoop_some hplan).1
  have hv' : ∀ pr ∈ pkts,
      ValidPacket payload bs (ceilDiv payload.length bs) pr := by
    intro pr hpr
    obtain ⟨hne, hnd, hbd, hval⟩ := hv pr hpr
    exact ⟨hnd, hbd, by
      rw [hval]
      exact lt_encoder_packet_eq payload bs pr.1 hne hbd⟩
  obtain ⟨hinv, -⟩ :=
    ingest_all_decInv pkts _ (decInv_init payload bs _) rfl hv'
  have hlen : (LTDecoder.ingest_all (LTDecoder.init (ceilDiv payload.length bs))
      pkts).recovered.length = ceilDiv payload.length bs := by
    have h2 : ((LTDecoder.ingest_all
          (LTDecoder.init (ceilDiv payload.length bs)) pkts).recovered.length
        == (LTDecoder.ingest_all (LTDecoder.init (ceilDiv payload.length bs))
          pkts).num_blocks) = true := hcomp
    have h3 := eq_of_beq h2
    rw [h3, hinv.num_eq]
  have hall := decInv_complete_lookup hinv hlen
  unfold reconstruct
  have hcg : (List.range (ceilDiv payload.length bs)).flatMap
        (fun i => ((LTDecoder.ingest_all
          (LTDecoder.init (ceilDiv payload.length bs)) pkts).recovered.lookup
            i).getD [])
      = (List.range (ceilDiv payload.length bs)).flatMap
        (fun i => block_at payload bs i) := by
    apply flatMap_congr_on
    intro a ha
    rw [hall a (List.mem_range.mp ha)]
    rfl
  rw [hcg,
    flatMap_block_at bs (by omega) _ payload
      (le_ceilDiv_mul payload.length bs (by omega))]
  exact List.take_left payload _

/-- Witness for `lt_round_trip`: payload `"ABCDE"`, `max_payload_size = 8`
(so `block_size = 7`, one block), one degree-1 packet. -/
theorem lt_round_trip_witness :
    reconstruct
        (LTDecoder.ingest_all (LTDecoder.init (ceilDiv (5 : Nat) 7))
          [([0], [65, 66, 67, 68, 69, 0, 0])])
        (ceilDiv (5 : Nat) 7) 5
      = [65, 66, 67, 68, 69] :=
  lt_round_trip [65, 66, 67, 68, 69] 8 7 rfl [([0], [65, 66, 67, 68, 69, 0, 0])]
    (by decide) (by decide)

/-! ### Robust Soliton Distribution (`tools.py`, floating point embedded over ℝ) -/

/-- `R = c * math.log(k / delta) * math.sqrt(k)`. -/
noncomputable def rsd_R (k : Nat) (c δ : ℝ) : ℝ :=
  c * Real.log (k / δ) * Real.sqrt k

/-- `K = min(int(math.floor(k / R)), k)` — the spike position. -/
noncomputable def rsd_M (k : Nat) (c δ : ℝ) : Nat :=
  (min ⌊(k : ℝ) / rsd_R k c δ⌋ (k : ℤ)).toNat

/-- The Ideal Soliton part: `rho[0] = 1/k`, `rho[d-1] = 1/(d(d-1))`
(index `j = d - 1`). -/
noncomputable def rsd_rho (k : Nat) : List ℝ :=
  (List.range k).map (fun (j : Nat) =>
    if j = 0 then 1 / (k : ℝ) else 1 / (((j : ℝ) + 1) * (j : ℝ)))

/-- The robustifying part: `tau[d-1] = R/(d*k)` for `d < K`, the spike
`tau[K-1] = R*log(R/delta)/k` when `1 ≤ K ≤ k`, zero beyond. -/
noncomputable def rsd_tau (k : Nat) (c δ : ℝ) : List ℝ :=
  (List.range k).map (fun (j : Nat) =>
    if j + 1 = rsd_M k c δ then
      rsd_R k c δ * Real.log (rsd_R k c δ / δ) / k
    else if j + 1 < rsd_M k c δ then
      rsd_R k c δ / (((j : ℝ) + 1) * k)
    else 0)

/-- `combined = [r + t for r, t in zip(rho, tau)]`. -/
noncomputable def rsd_combined (k : Nat) (c δ : ℝ) : List ℝ :=
  List.zipWith (fun r t => r + t) (rsd_rho k) (rsd_tau k c δ)

/-- `robust_soliton_distribution(k, c, delta)`:
`mu = [x / Z for x in combined]` with `Z = sum(combined)`. -/
noncomputable def robust_soliton_distribution (k : Nat) (c δ : ℝ) : List ℝ :=
  (rsd_combined k c δ).map (fun x => x / (rsd_combined k c δ).sum)

theorem sum_zipWith_add :
    ∀ (a b : List ℝ), a.length = b.length →
      (List.zipWith (fun r t => r + t) a b).sum = a.sum + b.sum := by
  intro a
  induction a with
  | nil =>
    intro b h
    have hb : b = [] := List.eq_nil_of_length_eq_zero (by simpa using h.symm)
    subst hb
    simp
  | cons x a ih =>
    intro b h
    cases b with
    | nil => simp at h
    | cons y b =>
      simp only [List.zipWith_cons_cons, List.sum_cons]
      rw [ih b (by simpa using h)]
      ring

theorem sum_map_div (z : ℝ) :
    ∀ l : List ℝ, (l.map (fun x => x / z)).sum = l.sum / z := by
  intro l
  induction l with
  | nil => simp
  | cons a l ih => simp [ih, add_div]

theorem sum_single_indicator (a : Nat) (v : ℝ) :
    ∀ k : Nat, ((List.range k).map (fun j => if j + 1 = a then v else 0)).sum
      = if 1 ≤ a ∧ a ≤ k then v else 0 := by
  intro k
  induction k with
  | zero =>
    rw [if_neg (by omega)]
    rfl
  | succ k ih =>
    rw [List.range_succ, List.map_append, List.sum_append, ih]
    simp only [List.map_cons, List.map_nil, List.sum_cons, List.sum_nil,
      add_zero]
    by_cases h1 : k + 1 = a
    · rw [if_pos h1, if_neg (by omega), if_pos (by omega), zero_add]
    · rw [if_neg h1, add_zero]
      by_cases h2 : 1 ≤ a ∧ a ≤ k
      · rw [if_pos h2, if_pos (by omega)]
      · rw [if_neg h2, if_neg (by omega)]

/-- The telescoping sum `Σ_{j<m} 1/((j+2)(j+1)) = 1 - 1/(m+1)`. -/
theorem telescope_sum :
    ∀ m : Nat, ((List.range m).map
        (fun j : Nat => 1 / (((j : ℝ) + 2) * ((j : ℝ) + 1)))).sum
      = 1 - 1 / ((m : ℝ) + 1) := by
  intro m
  induction m with
  | zero => simp
  | succ m ih =>
    rw [List.range_succ, List.map_append, List.sum_append, ih]
    simp only [List.map_cons, List.map_nil, List.sum_cons, List.sum_nil,
      add_zero]
    have h1 : ((m : ℝ) + 1) ≠ 0 := by positivity
    have h2 : ((m : ℝ) + 2) ≠ 0 := by positivity
    push_cast
    field_simp
    ring

/-- `t · ln t ≥ -1/e` for `t > 0`. -/
theorem mul_log_ge_neg_inv_exp (t : ℝ) (ht : 0 < t) :
    -(1 / Real.exp 1) ≤ t * Real.log t := by
  have he : (0 : ℝ) < Real.exp 1 := Real.exp_pos 1
  have hx : 0 < 1 / (t * Real.exp 1) := by positivity
  have h1 : Real.log (1 / (t * Real.exp 1)) ≤ 1 / (t * Real.exp 1) - 1 :=
    Real.log_le_sub_one_of_pos hx
  have h2 : Real.log (1 / (t * Real.exp 1)) = -(Real.log t + 1) := by
    rw [one_div, Real.log_inv, Real.log_mul (ne_of_gt ht) (ne_of_gt he),
      Real.log_exp]
  rw [h2] at h1
  have h3 : -Real.log t ≤ 1 / (t * Real.exp 1) := by linarith
  have h4 : t * -Real.log t ≤ t * (1 / (t * Real.exp 1)) :=
    mul_le_mul_of_nonneg_left h3 (le_of_lt ht)
  have h5 : t * (1 / (t * Real.exp 1)) = 1 / Real.exp 1 := by
    field_simp
  have h6 : t * -Real.log t = -(t * Real.log t) := by ring
  linarith

theorem rsd_R_pos (k : Nat) (c δ : ℝ) (hk : 1 ≤ k) (hc : 0 < c)
    (hδ0 : 0 < δ) (hδ1 : δ < 1) : 0 < rsd_R k c δ := by
  unfold rsd_R
  have hk1 : (1 : ℝ) ≤ (k : ℝ) := by exact_mod_cast hk
  have h1 : (1 : ℝ) < (k : ℝ) / δ := by
    rw [lt_div_iff hδ0]
    nlinarith
  have h2 : 0 < Real.log ((k : ℝ) / δ) := Real.log_pos h1
  have h3 : 0 < Real.sqrt k := Real.sqrt_pos.mpr (by linarith)
  exact mul_pos (mul_pos hc h2) h3

theorem rsd_M_le (k : Nat) (c δ : ℝ) : rsd_M k c δ ≤ k := by
  unfold rsd_M
  have h : (min ⌊(k : ℝ) / rsd_R k c δ⌋ (k : ℤ)) ≤ (k : ℤ) := min_le_right _ _
  exact Int.toNat_le.mpr h

theorem rsd_rho_sum (k : Nat) (hk : 1 ≤ k) : (rsd_rho k).sum = 1 := by
  cases k with
  | zero => omega
  | succ m =>
    rw [rsd_rho, List.range_succ_eq_map, List.map_cons, List.sum_cons,
      List.map_map]
    have hcg : ((List.range m).map
          ((fun (j : Nat) =>
            if j = 0 then 1 / ((m + 1 : Nat) : ℝ)
            else 1 / (((j : ℝ) + 1) * (j : ℝ))) ∘ Nat.succ)).sum
        = ((List.range m).map
          (fun j : Nat => 1 / (((j : ℝ) + 2) * ((j : ℝ) + 1)))).sum := by
      refine congrArg List.sum (List.map_congr_left ?_)
      intro a _
      simp only [Function.comp_apply, Nat.succ_ne_zero, if_false]
      push_cast
      ring_nf
    rw [hcg, telescope_sum m]
    simp only [if_pos rfl]
    have h1 : ((m : ℝ) + 1) ≠ 0 := by positivity
    push_cast
    field_simp
    ring

theorem rsd_rho_length (k : Nat) : (rsd_rho k).length = k := by
  simp [rsd_rho]

theorem rsd_tau_length (k : Nat) (c δ : ℝ) : (rsd_tau k c δ).length = k := by
  simp [rsd_tau]

/-- The spike value is never below `-1/e`. -/
theorem rsd_spike_ge (k : Nat) (c δ : ℝ) (hk : 1 ≤ k) (hc : 0 < c)
    (hδ0 : 0 < δ) (hδ1 : δ < 1) :
    -(1 / Real.exp 1) ≤ rsd_R k c δ * Real.log (rsd_R k c δ / δ) / k := by
  have hR := rsd_R_pos k c δ hk hc hδ0 hδ1
  have hk1 : (1 : ℝ) ≤ (k : ℝ) := by exact_mod_cast hk
  have ht : 0 < rsd_R k c δ / δ := by positivity
  have h1 := mul_log_ge_neg_inv_exp (rsd_R k c δ / δ) ht
  have he : (0 : ℝ) < Real.exp 1 := Real.exp_pos 1
  have h2 : rsd_R k c δ * Real.log (rsd_R k c δ / δ)
      = δ * (rsd_R k c δ / δ * Real.log (rsd_R k c δ / δ)) := by
    field_simp
  have h3 : -(1 / Real.exp 1) * δ ≤
      δ * (rsd_R k c δ / δ * Real.log (rsd_R k c δ / δ)) := by
    calc -(1 / Real.exp 1) * δ = δ * -(1 / Real.exp 1) := by ring
    _ ≤ δ * (rsd_R k c δ / δ * Real.log (rsd_R k c δ / δ)) :=
      mul_le_mul_of_nonneg_left h1 (le_of_lt hδ0)
  have h4 : -(1 / Real.exp 1) ≤ rsd_R k c δ * Real.log (rsd_R k c δ / δ) := by
    rw [h2]
    have : -(1 / Real.exp 1) ≤ -(1 / Real.exp 1) * δ := by
      rw [neg_mul]
      have h5 : 1 / Real.exp 1 * δ ≤ 1 / Real.exp 1 * 1 :=
        mul_le_mul_of_nonneg_left (le_of_lt hδ1) (by positivity)
      rw [mul_one] at h5
      linarith
    linarith
  have hk0 : (0 : ℝ) < (k : ℝ) := by linarith
  rw [le_div_iff hk0]
  calc -(1 / Real.exp 1) * (k : ℝ) ≤ -(1 / Real.exp 1) * 1 := by
        have h6 : 1 / Real.exp 1 * 1 ≤ 1 / Real.exp 1 * (k : ℝ) :=
          mul_le_mul_of_nonneg_left hk1 (by positivity)
        nlinarith
    _ = -(1 / Real.exp 1) := by ring
    _ ≤ rsd_R k c δ * Real.log (rsd_R k c δ / δ) := h4

theorem rsd_tau_sum_ge (k : Nat) (c δ : ℝ) (hk : 1 ≤ k) (hc : 0 < c)
    (hδ0 : 0 < δ) (hδ1 : δ < 1) :
    -(1 / Real.exp 1) ≤ (rsd_tau k c δ).sum := by
  have hR := rsd_R_pos k c δ hk hc hδ0 hδ1
  have hsp := rsd_spike_ge k c δ hk hc hδ0 hδ1
  have hmono : ((List.range k).map (fun (j : Nat) =>
      if j + 1 = rsd_M k c δ then
        rsd_R k c δ * Real.log (rsd_R k c δ / δ) / k
      else 0)).sum ≤ (rsd_tau k c δ).sum := by
    rw [rsd_tau]
    refine List.sum_le_sum ?_
    intro j _
    by_cases h1 : j + 1 = rsd_M k c δ
    · rw [if_pos h1, if_pos h1]
    · rw [if_neg h1, if_neg h1]
      by_cases h2 : j + 1 < rsd_M k c δ
      · rw [if_pos h2]
        exact div_nonneg (le_of_lt hR) (by positivity)
      · rw [if_neg h2]
  rw [sum_single_indicator] at hmono
  by_cases hM : 1 ≤ rsd_M k c δ ∧ rsd_M k c δ ≤ k
  · rw [if_pos hM] at hmono
    linarith
  · rw [if_neg hM] at hmono
    have hpos : 0 < 1 / Real.exp 1 := by positivity
    linarith

theorem rsd_Z_pos (k : Nat) (c δ : ℝ) (hk : 1 ≤ k) (hc : 0 < c)
    (hδ0 : 0 < δ) (hδ1 : δ < 1) : 0 < (rsd_combined k c δ).sum := by
  rw [rsd_combined,
    sum_zipWith_add _ _ (by rw [rsd_rho_length, rsd_tau_length]),
    rsd_rho_sum k hk]
  have htau := rsd_tau_sum_ge k c δ hk hc hδ0 hδ1
  have he : (2 : ℝ) < Real.exp 1 := by
    have h9 := Real.exp_one_gt_d9
    linarith
  have h2 : 1 / Real.exp 1 < 1 := by
    rw [div_lt_one (by linarith)]
    linarith
  linarith

theorem zipWith_add_map (f g : Nat → ℝ) :
    ∀ l : List Nat, List.zipWith (fun r t => r + t) (l.map f) (l.map g)
      = l.map (fun j => f j + g j) := by
  intro l
  induction l with
  | nil => rfl
  | cons a l ih => simp only [List.map_cons, List.zipWith_cons_cons, ih]

theorem rsd_combined_eq (k : Nat) (c δ : ℝ) :
    rsd_combined k c δ = (List.range k).map (fun (j : Nat) =>
      (if j = 0 then 1 / (k : ℝ) else 1 / (((j : ℝ) + 1) * (j : ℝ))) +
      (if j + 1 = rsd_M k c δ then
        rsd_R k c δ * Real.log (rsd_R k c δ / δ) / k
       else if j + 1 < rsd_M k c δ then rsd_R k c δ / (((j : ℝ) + 1) * k)
       else 0)) := by
  rw [rsd_combined, rsd_rho, rsd_tau, zipWith_add_map]

theorem rsd_mu_getD (k : Nat) (c δ : ℝ) (j : Nat) (hj : j < k) :
    (robust_soliton_distribution k c δ).getD j 0
      = ((if j = 0 then 1 / (k : ℝ) else 1 / (((j : ℝ) + 1) * (j : ℝ))) +
         (if j + 1 = rsd_M k c δ then
            rsd_R k c δ * Real.log (rsd_R k c δ / δ) / k
          else if j + 1 < rsd_M k c δ then rsd_R k c δ / (((j : ℝ) + 1) * k)
          else 0)) / (rsd_combined k c δ).sum := by
  rw [robust_soliton_distribution, rsd_combined_eq,
    List.getD_eq_getElem?_getD, List.getElem?_map, List.getElem?_map,
    List.getElem?_range hj]
  rfl

/-- Claim C3 (amended): for `k ≥ 1`, `c > 0`, `0 < δ < 1` the vector `mu`
returned by `robust_soliton_distribution(k, c, delta)` has length `k`, sums
to exactly 1 (in real arithmetic, hence within `10⁻¹²`), equals `[1.0]` for
`k = 1`, and every entry except possibly the spike entry at degree
`K = min(floor(k/R), k)` is nonnegative.  (The spike entry itself can be
negative — see the counterexample.) -/
theorem robust_soliton_distribution_spec (k : Nat) (c δ : ℝ)
    (hk : 1 ≤ k) (hc : 0 < c) (hδ0 : 0 < δ) (hδ1 : δ < 1) :
    (robust_soliton_distribution k c δ).length = k ∧
    (robust_soliton_distribution k c δ).sum = 1 ∧
    (k = 1 → robust_soliton_distribution k c δ = [1]) ∧
    ∀ j, j < k → j + 1 ≠ rsd_M k c δ →
      0 ≤ (robust_soliton_distribution k c δ).getD j 0 := by
  have hZ := rsd_Z_pos k c δ hk hc hδ0 hδ1
  have hR := rsd_R_pos k c δ hk hc hδ0 hδ1
  refine ⟨?_, ?_, ?_, ?_⟩
  · rw [robust_soliton_distribution, List.length_map, rsd_combined,
      List.length_zipWith, rsd_rho_length, rsd_tau_length, min_self]
  · rw [robust_soliton_distribution, sum_map_div, div_self (ne_of_gt hZ)]
  · intro hk1
    subst hk1
    obtain ⟨x, hx⟩ : ∃ x, rsd_combined 1 c δ = [x] := by
      have hlen : (rsd_combined 1 c δ).length = 1 := by
        rw [rsd_combined, List.length_zipWith, rsd_rho_length, rsd_tau_length,
          min_self]
      cases hc2 : rsd_combined 1 c δ with
      | nil =>
        rw [hc2] at hlen
        cases hlen
      | cons a l =>
        cases l with
        | nil => exact ⟨a, rfl⟩
        | cons b l2 =>
          rw [hc2] at hlen
          simp at hlen
    have hxz : ([x] : List ℝ).sum = x := by simp
    rw [hx, hxz] at hZ
    rw [robust_soliton_distribution, hx]
    simp only [List.map_cons, List.map_nil, hxz]
    rw [div_self (ne_of_gt hZ)]
  · intro j hj hsp
    rw [rsd_mu_getD k c δ j hj]
    refine div_nonneg ?_ (le_of_lt hZ)
    have hrho : 0 ≤ (if j = 0 then 1 / (k : ℝ)
        else 1 / (((j : ℝ) + 1) * (j : ℝ))) := by
      by_cases h0 : j = 0
      · rw [if_pos h0]
        positivity
      · rw [if_neg h0]
        exact div_nonneg zero_le_one (by positivity)
    have htau : 0 ≤ (if j + 1 = rsd_M k c δ then
        rsd_R k c δ * Real.log (rsd_R k c δ / δ) / k
        else if j + 1 < rsd_M k c δ then rsd_R k c δ / (((j : ℝ) + 1) * k)
        else 0) := by
      rw [if_neg hsp]
      by_cases h2 : j + 1 < rsd_M k c δ
      · rw [if_pos h2]
        exact div_nonneg (le_of_lt hR) (by positivity)
      · rw [if_neg h2]
    linarith

/-- Witness for `robust_soliton_distribution_spec` at the `k = 1` edge case
with `c = 1/10`, `δ = 1/2` (the code's scenario of defaults scaled down):
`mu = [1.0]` is forced by the third conjunct. -/
theorem robust_soliton_distribution_spec_witness :
    (robust_soliton_distribution 1 (1/10) (1/2)).length = 1 ∧
    (robust_soliton_distribution 1 (1/10) (1/2)).sum = 1 ∧
    ((1 : Nat) = 1 → robust_soliton_distribution 1 (1/10) (1/2) = [1]) ∧
    ∀ j, j < 1 → j + 1 ≠ rsd_M 1 (1/10) (1/2) →
      0 ≤ (robust_soliton_distribution 1 (1/10) (1/2)).getD j 0 :=
  robust_soliton_distribution_spec 1 (1/10) (1/2) (by norm_num) (by norm_num)
    (by norm_num) (by norm_num)

theorem rsd_ce_arith (r L : ℝ) (h1 : (0.277 : ℝ) < r) (h2 : r < 0.278)
    (hL : L ≤ 2 * r - 1) : 1 / ((16 : ℝ) * 15) + r * L / 16 < 0 := by
  have h0 : (0 : ℝ) < r := by linarith
  have hL0 : L ≤ -0.444 := by linarith
  have hrL : r * L ≤ r * (-0.444) :=
    mul_le_mul_of_nonneg_left hL0 (le_of_lt h0)
  have h3 : r * (-0.444) ≤ 0.277 * (-0.444) := by nlinarith
  nlinarith

/-- Claim C3 (counterexample): at `k = 16`, `c = 1/50`, `δ = 1/2` the ripple
parameter `R = (2/5)·ln 2 ≈ 0.277` falls below `δ`, making the spike value
`R·ln(R/δ)/k` negative and larger in magnitude than `rho[15] = 1/240`: the
returned `mu` has a strictly negative entry, refuting `mu[d] ≥ 0`. -/
theorem robust_soliton_distribution_negative_entry :
    (robust_soliton_distribution 16 (1/50) (1/2)).getD 15 0 < 0 := by
  have hR0 : (0 : ℝ) < rsd_R 16 (1/50) (1/2) :=
    rsd_R_pos 16 (1/50) (1/2) (by norm_num) (by norm_num) (by norm_num)
      (by norm_num)
  have hZ : 0 < (rsd_combined 16 (1/50) (1/2)).sum :=
    rsd_Z_pos 16 (1/50) (1/2) (by norm_num) (by norm_num) (by norm_num)
      (by norm_num)
  have hR_eq : rsd_R 16 (1/50) (1/2) = 2/5 * Real.log 2 := by
    rw [rsd_R]
    have h32 : ((16 : Nat) : ℝ) / (1/2 : ℝ) = 2 ^ 5 := by norm_num
    have hsqrt : Real.sqrt ((16 : Nat) : ℝ) = 4 := by
      rw [show (((16 : Nat)) : ℝ) = 4 ^ 2 by norm_num,
        Real.sqrt_sq (by norm_num)]
    rw [h32, Real.log_pow, hsqrt]
    push_cast
    ring
  have hrlo : (0.277 : ℝ) < rsd_R 16 (1/50) (1/2) := by
    rw [hR_eq]
    have h9 := Real.log_two_gt_d9
    nlinarith
  have hrhi : rsd_R 16 (1/50) (1/2) < 0.278 := by
    rw [hR_eq]
    have h9 := Real.log_two_lt_d9
    nlinarith
  have hM : rsd_M 16 (1/50) (1/2) = 16 := by
    have hfloor : ((16 : Nat) : ℤ)
        ≤ ⌊((16 : Nat) : ℝ) / rsd_R 16 (1/50) (1/2)⌋ := by
      rw [Int.le_floor, le_div_iff hR0]
      push_cast
      nlinarith
    rw [rsd_M, min_eq_right hfloor]
    rfl
  rw [rsd_mu_getD 16 (1/50) (1/2) 15 (by norm_num)]
  rw [if_neg (by norm_num), hM, if_pos rfl]
  refine div_neg_of_neg_of_pos ?_ hZ
  have hdiv : rsd_R 16 (1/50) (1/2) / (1/2 : ℝ)
      = 2 * rsd_R 16 (1/50) (1/2) := by
    ring
  rw [hdiv]
  have hlogle : Real.log (2 * rsd_R 16 (1/50) (1/2))
      ≤ 2 * rsd_R 16 (1/50) (1/2) - 1 :=
    Real.log_le_sub_one_of_pos (by linarith)
  have harith := rsd_ce_arith (rsd_R 16 (1/50) (1/2))
    (Real.log (2 * rsd_R 16 (1/50) (1/2))) hrlo hrhi hlogle
  push_cast
  have heq : (1 : ℝ) / (((15 : ℝ) + 1) * 15) = 1 / ((16 : ℝ) * 15) := by
    norm_num
  linarith [harith, heq]
